import Mathlib

/-!
Shallow embedding of `src/main.py` (inform7-terrain-generator).

The program builds a width × height grid of Inform7 rooms from seeded Perlin
noise, assigns each room a categorical condition, wires cardinal adjacencies,
groups rooms into regions, and renders everything to text.

Modelling conventions:
 * Python floats are modelled as rationals (`ℚ`); the arithmetic performed by
   the program (sums, products, divisions by grid dimensions) is exact on the
   inputs considered, so the rational model mirrors the float code path.
 * The Perlin noise library (`perlin_noise.PerlinNoise`) is an external
   dependency; a sample is a pure function of (octaves, seed, x, y).  It is
   modelled as an explicit oracle parameter `Perlin` threaded through the
   generator, so every theorem quantifies over the possible noise fields.
 * `num2words` is an external dependency; `words` below models its English
   cardinal output ("one", "twenty-one", "one hundred and five", ...) for
   numbers below one million, which covers every linear room index the
   generator can realistically produce.
 * Fallible code (Python `list[...]` indexing that can raise `IndexError`)
   is modelled with `Option`; a `none` result is an uncaught exception, so a
   run that raises produces no output at all.
 * Python-specific primitives (`round`, negative-wrapping list indexing,
   `str.title`, `str.strip`, `str.replace`, `str.join`) are modelled by
   `pyRound`, `pyIndex`, `pyTitle`, `pythonStrip`, `pyReplace`, `pyJoin`.
-/

/-- Python `round` on a rational: round-half-to-even (banker's rounding). -/
def pyRound (q : ℚ) : ℤ :=
  let f := ⌊q⌋
  if q - f = 1/2 then (if 2 ∣ f then f else f + 1) else ⌊q + 1/2⌋

/-- Python list indexing `xs[i]`: negative indices wrap once from the end;
out-of-range access raises `IndexError`, modelled as `none`. -/
def pyIndex {α : Type} (xs : List α) (i : ℤ) : Option α :=
  if 0 ≤ i then xs[i.toNat]?
  else if 0 ≤ (xs.length : ℤ) + i then xs[((xs.length : ℤ) + i).toNat]? else none

/-- Python `sep.join(l)`. -/
def pyJoin (sep : String) : List String → String
  | [] => ""
  | [x] => x
  | x :: y :: ys => x ++ sep ++ pyJoin sep (y :: ys)

/-- One step of Python `str.title()`: a letter is uppercased when the previous
character is not a letter, lowercased otherwise; other characters unchanged. -/
def titleChar (prev : Bool) (c : Char) : Char :=
  if c.isAlpha then (if prev then c.toLower else c.toUpper) else c

/-- Character-list worker for Python `str.title()`; the boolean records
whether the previous character was a letter. -/
def pyTitleGo : Bool → List Char → List Char
  | _, [] => []
  | prev, c :: cs => titleChar prev c :: pyTitleGo c.isAlpha cs

/-- Python `s.title()`. -/
def pyTitle (s : String) : String := ⟨pyTitleGo false s.data⟩

/-- The whitespace characters stripped by Python `str.strip()`. -/
def pyIsSpace (c : Char) : Bool :=
  c == ' ' || c == '\t' || c == '\n' || c == '\r' || c == '\x0b' || c == '\x0c'

/-- Character-list worker for Python `str.strip()`. -/
def pyStripData (l : List Char) : List Char :=
  ((l.dropWhile pyIsSpace).reverse.dropWhile pyIsSpace).reverse

/-- Python `s.strip()`. -/
def pythonStrip (s : String) : String := ⟨pyStripData s.data⟩

/-- Fuelled worker for Python `str.replace`: replaces non-overlapping
occurrences of `pat` left to right.  The fuel bounds the scan length. -/
def pyReplaceGo (pat rep : List Char) : ℕ → List Char → List Char
  | _, [] => []
  | 0, s => s
  | fuel + 1, c :: rest =>
    if pat ≠ [] ∧ pat.isPrefixOf (c :: rest) then
      rep ++ pyReplaceGo pat rep fuel (rest.drop (pat.length - 1))
    else c :: pyReplaceGo pat rep fuel rest

/-- Python `s.replace(pat, rep)` for a non-empty pattern (the only way the
program calls it). -/
def pyReplace (s pat rep : String) : String :=
  ⟨pyReplaceGo pat.data rep.data s.data.length s.data⟩

/-- `translate_value` from `src/main.py`: linear rescale of `value` from
`[from_min, from_max]` onto `[to_min, to_max]`. -/
def translate_value (value : ℚ) (from_min : ℚ := 0) (from_max : ℚ := 1)
    (to_min : ℚ := 0) (to_max : ℚ := 1) : ℚ :=
  let from_span := from_max - from_min
  let to_span := to_max - to_min
  let ret := (value - from_min) / from_span
  to_min + ret * to_span

/-- `pretty_list` from `src/main.py`: natural-language list joining with a
final conjunction; for three or more items the comma before the conjunction
is removed again by the final `replace`. -/
def pretty_list (array : List String := ["foo", "bar", "baz"])
    (andor : String := "or") : String :=
  if array.length = 0 then ""
  else if array.length = 1 then array.headD ""
  else if array.length = 2 then pyJoin (" " ++ andor ++ " ") array
  else
    pyReplace (pyJoin ", " (array.dropLast ++ [andor ++ " " ++ array.getLastD ""]))
      (", " ++ andor) (" " ++ andor)

/-- English number words 0–19, as produced by `num2words`. -/
def below20 : ℕ → String
  | 0 => "zero" | 1 => "one" | 2 => "two" | 3 => "three" | 4 => "four"
  | 5 => "five" | 6 => "six" | 7 => "seven" | 8 => "eight" | 9 => "nine"
  | 10 => "ten" | 11 => "eleven" | 12 => "twelve" | 13 => "thirteen"
  | 14 => "fourteen" | 15 => "fifteen" | 16 => "sixteen" | 17 => "seventeen"
  | 18 => "eighteen" | _ => "nineteen"

/-- English tens words, as produced by `num2words` (argument is tens digit). -/
def tensWord : ℕ → String
  | 2 => "twenty" | 3 => "thirty" | 4 => "forty" | 5 => "fifty"
  | 6 => "sixty" | 7 => "seventy" | 8 => "eighty" | _ => "ninety"

/-- English words for numbers below 100 ("seven", "twenty-one"), one token. -/
def under100 (n : ℕ) : String :=
  if n < 20 then below20 n
  else tensWord (n / 10) ++ (if n % 10 = 0 then "" else "-" ++ below20 (n % 10))

/-- Space-separated tokens of the English words for numbers below 1000
("one hundred and five" is [one, hundred, and, five]). -/
def under1000T (n : ℕ) : List String :=
  if n < 100 then [under100 n]
  else [below20 (n / 100), "hundred"] ++
    (if n % 100 = 0 then [] else ["and", under100 (n % 100)])

/-- Space-separated tokens of the English cardinal produced by `num2words`
for numbers below one million: a comma is attached to "thousand" when a
hundreds part follows ("one thousand, two hundred and five"), while a final
part below 100 is joined with "and" ("one thousand and five"). -/
def numTokens (n : ℕ) : List String :=
  if n < 1000 then under1000T n
  else under1000T (n / 1000) ++
    (if n % 1000 = 0 then ["thousand"]
     else if n % 1000 < 100 then ["thousand", "and", under100 (n % 1000)]
     else ["thousand,"] ++ under1000T (n % 1000))

/-- Space-joined token list. -/
def joinTok : List String → String
  | [] => ""
  | [x] => x
  | x :: y :: ys => x ++ " " ++ joinTok (y :: ys)

/-- Model of `num2words(n)` (English cardinal), faithful for `n < 1000000`;
the generator feeds it the linear room indices `1 .. width*height`. -/
def words (n : ℕ) : String := joinTok (numTokens n)

/-- The `Room` class of `src/main.py` (post-`__init__` state). -/
structure Room where
  name : String
  value : ℚ
  condition : String
  position : ℕ × ℕ
  description : String
  printed_name : String
  north : Option String
  south : Option String
  east : Option String
  west : Option String
deriving DecidableEq, Repr

/-- The direction phrase `f"north of {x}" if self.north else None`: Python
truthiness makes both `None` and the empty string fall to `None`. -/
def dirText (d : String) (v : Option String) : Option String :=
  v.bind fun n => if n = "" then none else some (d ++ " of " ++ n)

/-- `Room.render` from `src/main.py`. -/
def Room.render (r : Room) : String :=
  let neighbors := [dirText "north" r.north, dirText "south" r.south,
    dirText "east" r.east, dirText "west" r.west].filterMap id
  let name := r.name ++ " is a room."
  let condition := "It is " ++ r.condition ++ "."
  let description := "The description of " ++ r.name ++ " is \"[" ++ r.description ++ "]\"."
  let printed := "The printed name is \"" ++ r.printed_name ++ "\"."
  let directions :=
    if neighbors.length ≠ 0 then r.name ++ " is " ++ pretty_list neighbors "and" ++ "."
    else ""
  pyJoin " " [name, condition, description, printed, directions]

/-- The `Region` class of `src/main.py`. -/
structure Region where
  name : String
  condition : String
  rooms : List String
deriving DecidableEq, Repr

/-- `Region.render` from `src/main.py`. -/
def Region.render (rg : Region) : String :=
  let name := rg.name ++ " is a region."
  let rooms := pretty_list rg.rooms "and"
  let isare := if rg.rooms.length = 1 then "is" else "are"
  pyJoin " " [name, rooms, isare, "in " ++ rg.name ++ "."]

/-- A Perlin-noise oracle: a sample is a pure function of
(octaves, seed, x, y), which is exactly the determinism guarantee of the
external `perlin_noise` library (it re-seeds from `seed` on construction). -/
abbrev Perlin : Type := ℕ → ℤ → ℚ → ℚ → ℚ

/-- The `TerrainMaker` class of `src/main.py` (post-`__init__` state:
`width` and `height` are already clamped to at least 1 by `make`). -/
structure TerrainMaker where
  width : ℕ
  height : ℕ
  seed : ℤ
  name : String
  description : String
  initial : String
  region : String
  printed_name : String
  conditions : List (String × String)
deriving DecidableEq, Repr

/-- `TerrainMaker.__init__`: stores `max(1, width)` and `max(1, height)`;
`conditions` is the ordered category → description mapping (a Python dict,
so its keys are distinct and iteration order is insertion order). -/
def TerrainMaker.make (width height : ℤ) (seed : ℤ)
    (name description initial region printed_name : String)
    (conditions : List (String × String)) : TerrainMaker :=
  { width := (max 1 width).toNat
    height := (max 1 height).toNat
    seed := seed
    name := name
    description := description
    initial := initial
    region := region
    printed_name := printed_name
    conditions := conditions }

/-- `TerrainMaker.noise`: four Perlin octaves (3, 6, 12, 24) at halving
amplitude, plus the 0.5 bias. -/
def TerrainMaker.noise (p : Perlin) (t : TerrainMaker) (horizontal vertical : ℚ) : ℚ :=
  p 3 t.seed horizontal vertical
    + p 6 t.seed horizontal vertical * (1/2)
    + p 12 t.seed horizontal vertical * (1/4)
    + p 24 t.seed horizontal vertical * (1/8)
    + 1/2

/-- `TerrainMaker.__values`: row-major noise samples at
`(col/width + 1, row/height + 1)` for 1-based `col`, `row`. -/
def TerrainMaker.values (p : Perlin) (t : TerrainMaker) : List ℚ :=
  (List.range t.height).flatMap fun hi =>
    (List.range t.width).map fun wi =>
      t.noise p ((wi + 1 : ℚ) / t.width + 1) ((hi + 1 : ℚ) / t.height + 1)

/-- The (row, column) loop of `TerrainMaker.__rooms`, 0-based: outer loop
over rows, inner over columns, mirroring `range(1, height+1)` /
`range(1, width+1)`. -/
def TerrainMaker.cells (t : TerrainMaker) : List (ℕ × ℕ) :=
  (List.range t.height).flatMap fun hi =>
    (List.range t.width).map fun wi => (hi, wi)

/-- Sequential `Option`-valued mapping: the Python loop appends one result
per element and an exception (`none`) aborts the whole loop. -/
def seqMap {α β : Type} (f : α → Option β) : List α → Option (List β)
  | [] => some []
  | x :: xs =>
    match f x, seqMap f xs with
    | some y, some ys => some (y :: ys)
    | _, _ => none

/-- The room built for the cell at 0-based (row `hi`, column `wi`) in the
first pass of `TerrainMaker.__rooms`; `none` when `keys[round(value)]`
raises `IndexError`. -/
def TerrainMaker.mkCell (p : Perlin) (t : TerrainMaker) (cell : ℕ × ℕ) : Option Room :=
  let vals := t.values p
  let keys := t.conditions.map Prod.fst
  let count := t.width * t.height + 1
  let index := cell.1 * t.width + cell.2 + 1
  let value := translate_value (vals.getD (index - 1) 0) 0 1 0 ((keys.length : ℤ) - 1)
  (pyIndex keys (pyRound value)).map fun cond =>
    { name := pyTitle (t.name ++ " " ++ words (count - index))
      value := value
      condition := cond
      position := (cell.2, cell.1)
      description := t.description
      printed_name := t.printed_name
      north := none
      south := none
      east := none
      west := none }

/-- First pass of `TerrainMaker.__rooms`: one room per cell, row-major. -/
def TerrainMaker.roomsPass1 (p : Perlin) (t : TerrainMaker) : Option (List Room) :=
  seqMap (t.mkCell p) t.cells

/-- Second pass of `TerrainMaker.__rooms` for one room: the four guarded
neighbor lookups.  `room.north` names the room at `(x, y+1)`, `room.south`
the room at `(x, y-1)`, `room.west` the room at `(x+1, y)`, `room.east` the
room at `(x-1, y)`; a missing neighbor leaves the field `None`.  `pop()`
takes the last match of the scan. -/
def wireRoom (t : TerrainMaker) (out : List Room) (r : Room) : Room :=
  let x := r.position.1
  let y := r.position.2
  let r1 :=
    if y < t.height then
      { r with north := ((out.filter fun s => s.position = (x, y + 1)).getLast?).map Room.name }
    else r
  let r2 :=
    if 0 < y then
      { r1 with south := ((out.filter fun s => s.position = (x, y - 1)).getLast?).map Room.name }
    else r1
  let r3 :=
    if x < t.width then
      { r2 with west := ((out.filter fun s => s.position = (x + 1, y)).getLast?).map Room.name }
    else r2
  let r4 :=
    if 0 < x then
      { r3 with east := ((out.filter fun s => s.position = (x - 1, y)).getLast?).map Room.name }
    else r3
  r4

/-- `TerrainMaker.__rooms`: build all rooms, then wire neighbors.  The
Python second pass mutates rooms in place but only ever reads the `position`
and `name` fields of other rooms, which the mutation never changes, so a
pure map over the first-pass list is faithful. -/
def TerrainMaker.rooms (p : Perlin) (t : TerrainMaker) : Option (List Room) :=
  (t.roomsPass1 p).map fun out => out.map (wireRoom t out)

/-- The loop of `TerrainMaker.__regions`: for each category key in order,
recompute `__rooms` and collect the names of the rooms with that condition;
append a region only when the list is non-empty. -/
def TerrainMaker.regionsGo (p : Perlin) (t : TerrainMaker) :
    List String → List Region → Option (List Region)
  | [], acc => some acc
  | key :: ks, acc =>
    match t.rooms p with
    | none => none
    | some rms =>
      let names := (rms.filter fun r => r.condition = key).map Room.name
      t.regionsGo p ks
        (if names.length ≠ 0 then
          acc ++ [{ name := pyTitle ("The " ++ key ++ " " ++ t.region)
                    condition := key
                    rooms := names }]
         else acc)

/-- `TerrainMaker.__regions`. -/
def TerrainMaker.regions (p : Perlin) (t : TerrainMaker) : Option (List Region) :=
  t.regionsGo p (t.conditions.map Prod.fst) []

/-- `TerrainMaker.__conditions`: the category declaration / default /
"To say" block.  `conditions` is the configured key list filtered to the
keys of emitted regions; the dict lookup `self.conditions.get(condition)`
would print "None" when absent. -/
def TerrainMaker.conditionsBlock (p : Perlin) (t : TerrainMaker) : Option String :=
  match t.regions p with
  | none => none
  | some regs =>
    let regionConds := regs.map Region.condition
    let conds := (t.conditions.map Prod.fst).filter fun c => c ∈ regionConds
    let intro : List String :=
      if conds.length ≠ 0 then
        [pyJoin " " ["A room can be " ++ pretty_list conds "or" ++ ".",
                     "A room is usually " ++ conds.headD "" ++ "."],
         ""]
      else []
    let body : List String :=
      ["To say " ++ t.description ++ ":",
       "\tsay \"" ++ t.initial ++ " [run paragraph on]\";"]
    let condLines := conds.enum.map fun ic =>
      let description := match t.conditions.lookup ic.2 with
        | some d => d
        | none => "None"
      let last := if ic.1 = conds.length - 1 then "." else ";"
      "\tif the location is " ++ ic.2 ++ ", say \"" ++ description ++ "\"" ++ last
    some (pythonStrip (pyJoin "\n" (intro ++ body ++ condLines)))

/-- `TerrainMaker.render`: conditions block, then one block per room, then
one block per region, joined by blank lines.  A `none` anywhere is an
uncaught Python exception: the run terminates with no output. -/
def TerrainMaker.render (p : Perlin) (t : TerrainMaker) : Option String :=
  match t.conditionsBlock p, t.rooms p, t.regions p with
  | some c, some rms, some regs =>
    some (pyJoin "\n\n" ([c] ++ rms.map Room.render ++ regs.map Region.render))
  | _, _, _ => none

/-! ### Generic helper lemmas -/

/-- Two strings with equal character data are equal. -/
theorem strData_inj {s t : String} (h : s.data = t.data) : s = t := by
  cases s; cases t; exact congrArg String.mk h

/-- Splitting a list at a unique marker: if the prefixes contain no marker
and the split elements are markers, the decompositions coincide. -/
theorem marker_split {α : Type} (p : α → Bool) (a : List α) :
    ∀ (a' : List α) (x x' : α) (b b' : List α),
      (∀ y ∈ a, p y = false) → (∀ y ∈ a', p y = false) →
      p x = true → p x' = true →
      a ++ x :: b = a' ++ x' :: b' → a = a' ∧ x = x' ∧ b = b' := by
  induction a with
  | nil =>
    intro a' x x' b b' _ ha' hx _ h
    cases a' with
    | nil =>
      simp only [List.nil_append, List.cons.injEq] at h
      exact ⟨rfl, h.1, h.2⟩
    | cons u t =>
      simp only [List.nil_append, List.cons_append, List.cons.injEq] at h
      have hu : p u = false := ha' u (by simp)
      rw [← h.1, hx] at hu
      cases hu
  | cons u t ih =>
    intro a' x x' b b' ha ha' hx hx' h
    cases a' with
    | nil =>
      simp only [List.cons_append, List.nil_append, List.cons.injEq] at h
      have hu : p u = false := ha u (by simp)
      rw [h.1, hx'] at hu
      cases hu
    | cons v s =>
      simp only [List.cons_append, List.cons.injEq] at h
      obtain ⟨huv, hrest⟩ := h
      obtain ⟨h1, h2, h3⟩ := ih s x x' b b'
        (fun y hy => ha y (List.mem_cons_of_mem u hy))
        (fun y hy => ha' y (List.mem_cons_of_mem v hy)) hx hx' hrest
      exact ⟨by rw [huv, h1], h2, h3⟩

/-- `seqMap` succeeds exactly when every element does, with the expected
length. -/
theorem seqMap_some_length {α β : Type} {f : α → Option β} :
    ∀ {l : List α} {ys : List β}, seqMap f l = some ys → ys.length = l.length := by
  intro l
  induction l with
  | nil => intro ys h; simp only [seqMap] at h; cases h; rfl
  | cons x xs ih =>
    intro ys h
    simp only [seqMap] at h
    cases hx : f x with
    | none => rw [hx] at h; cases h
    | some y =>
      rw [hx] at h
      cases hxs : seqMap f xs with
      | none => rw [hxs] at h; cases h
      | some zs =>
        rw [hxs] at h
        cases h
        simp [ih hxs]

/-- Pointwise images of a successful `seqMap` agree with images of the
inputs. -/
theorem seqMap_map_eq {α β γ : Type} {f : α → Option β} {g : β → γ} {h : α → γ}
    (H : ∀ x y, f x = some y → g y = h x) :
    ∀ {l : List α} {ys : List β}, seqMap f l = some ys → ys.map g = l.map h := by
  intro l
  induction l with
  | nil => intro ys hl; simp only [seqMap] at hl; cases hl; rfl
  | cons x xs ih =>
    intro ys hl
    simp only [seqMap] at hl
    cases hx : f x with
    | none => rw [hx] at hl; cases hl
    | some y =>
      rw [hx] at hl
      cases hxs : seqMap f xs with
      | none => rw [hxs] at hl; cases hl
      | some zs =>
        rw [hxs] at hl
        cases hl
        simp [H x y hx, ih hxs]

/-- A `seqMap` whose elements all succeed with known values. -/
theorem seqMap_of_forall {α β : Type} {f : α → Option β} {g : α → β} :
    ∀ {l : List α}, (∀ x ∈ l, f x = some (g x)) → seqMap f l = some (l.map g) := by
  intro l
  induction l with
  | nil => intro _; rfl
  | cons x xs ih =>
    intro H
    simp only [seqMap, H x (by simp), ih fun y hy => H y (List.mem_cons_of_mem x hy)]
    rfl

/-- Every element of a successful `seqMap` image comes from some input. -/
theorem seqMap_mem {α β : Type} {f : α → Option β} :
    ∀ {l : List α} {ys : List β}, seqMap f l = some ys →
      ∀ y ∈ ys, ∃ x ∈ l, f x = some y := by
  intro l
  induction l with
  | nil => intro ys h; simp only [seqMap] at h; cases h; intro y hy; cases hy
  | cons x xs ih =>
    intro ys h
    simp only [seqMap] at h
    cases hx : f x with
    | none => rw [hx] at h; cases h
    | some y =>
      rw [hx] at h
      cases hxs : seqMap f xs with
      | none => rw [hxs] at h; cases h
      | some zs =>
        rw [hxs] at h
        cases h
        intro z hz
        rcases List.mem_cons.mp hz with hz | hz
        · exact ⟨x, by simp, by rw [hx, hz]⟩
        · obtain ⟨w, hw, hfw⟩ := ih hxs z hz
          exact ⟨w, List.mem_cons_of_mem x hw, hfw⟩

/-! ### Injectivity of the number-word model

The room identifiers are built from `words`; uniqueness of identifiers
reduces to injectivity of `words` on the range of linear indices the
generator can produce (`1 .. width*height`, bounded here by one million). -/

/-- Injectivity on an initial segment, from distinctness of the listed
values. -/
theorem inj_on_range_of_nodup {α : Type} {f : ℕ → α} {N : ℕ}
    (h : ((List.range N).map f).Nodup) {m n : ℕ} (hm : m < N) (hn : n < N)
    (hf : f m = f n) : m = n := by
  have hm' : m < ((List.range N).map f).length := by simpa using hm
  have hn' : n < ((List.range N).map f).length := by simpa using hn
  have hgm : ((List.range N).map f)[m] = f m := by simp
  have hgn : ((List.range N).map f)[n] = f n := by simp
  exact (List.Nodup.getElem_inj_iff h).mp (by rw [hgm, hgn, hf])

/-- The 100 words below one hundred are pairwise distinct. -/
theorem under100_nodup : ((List.range 100).map under100).Nodup := by decide

/-- `under100` is injective below 100. -/
theorem under100_inj {m n : ℕ} (hm : m < 100) (hn : n < 100)
    (h : under100 m = under100 n) : m = n :=
  inj_on_range_of_nodup under100_nodup hm hn h

/-- Below 20 the one-token word is the table word. -/
theorem under100_eq_below20 {n : ℕ} (h : n < 20) : under100 n = below20 n := by
  simp [under100, h]

/-- The characters allowed in a number word: lowercase letters, space,
hyphen, comma. -/
def allowedList : List Char := "abcdefghijklmnopqrstuvwxyz -,".data

/-- Whether a character may occur in a number word. -/
def allowedChar (c : Char) : Bool := allowedList.contains c

/-- Shape facts about the one-token words below 100: non-empty, space-free,
distinct from the structural tokens, made of allowed characters. -/
theorem under100_facts : ∀ n < 100, (under100 n).data ≠ [] ∧
    ' ' ∉ (under100 n).data ∧
    under100 n ≠ "thousand" ∧ under100 n ≠ "thousand," ∧
    under100 n ≠ "hundred" ∧ under100 n ≠ "and" ∧
    (∀ c ∈ (under100 n).data, allowedChar c = true) := by decide

/-- The same shape facts for the four structural tokens. -/
theorem structuralTok_facts :
    (∀ s ∈ ["hundred", "and", "thousand", "thousand,"], s.data ≠ [] ∧
      ' ' ∉ s.data ∧ (∀ c ∈ s.data, allowedChar c = true)) ∧
    ("hundred" : String) ≠ "thousand" ∧ ("hundred" : String) ≠ "thousand," ∧
    ("and" : String) ≠ "thousand" ∧ ("and" : String) ≠ "thousand," ∧
    (∀ n < 20, below20 n ≠ "and" ∧ below20 n ≠ "hundred") := by decide

/-- Marker predicate for the thousands separator tokens. -/
def isThTok (s : String) : Bool := s == "thousand" || s == "thousand,"

/-- No token of a below-1000 word is a thousands token, and every token is
non-empty, space-free and made of allowed characters. -/
theorem under1000T_tok_facts {n : ℕ} (hn : n < 1000) :
    ∀ s ∈ under1000T n, s.data ≠ [] ∧ ' ' ∉ s.data ∧ isThTok s = false ∧
      (∀ c ∈ s.data, allowedChar c = true) := by
  intro s hs
  have hth : ∀ m < 100, isThTok (under100 m) = false := by
    intro m hm
    obtain ⟨-, -, h1, h2, -, -, -⟩ := under100_facts m hm
    simp [isThTok, h1, h2]
  unfold under1000T at hs
  by_cases h : n < 100
  · simp only [h, if_true, List.mem_singleton] at hs
    subst hs
    obtain ⟨h1, h2, -, -, -, -, h7⟩ := under100_facts n h
    exact ⟨h1, h2, hth n h, h7⟩
  · simp only [h, if_false, List.cons_append, List.nil_append] at hs
    have hd : n / 100 < 20 := by omega
    rcases List.mem_cons.mp hs with hs | hs
    · subst hs
      rw [← under100_eq_below20 hd]
      obtain ⟨h1, h2, -, -, -, -, h7⟩ := under100_facts (n / 100) (by omega)
      exact ⟨h1, h2, hth (n / 100) (by omega), h7⟩
    rcases List.mem_cons.mp hs with hs | hs
    · subst hs
      refine ⟨by decide, by decide, by decide, by decide⟩
    · by_cases hm : n % 100 = 0
      · simp [hm] at hs
      · simp only [hm, if_false] at hs
        rcases List.mem_cons.mp hs with hs | hs
        · subst hs
          refine ⟨by decide, by decide, by decide, by decide⟩
        · simp only [List.mem_singleton] at hs
          subst hs
          obtain ⟨h1, h2, -, -, -, -, h7⟩ := under100_facts _ (Nat.mod_lt n (by omega))
          exact ⟨h1, h2, hth _ (Nat.mod_lt n (by omega)), h7⟩

/-- `under1000T` is injective below 1000. -/
theorem under1000T_inj {m n : ℕ} (hm : m < 1000) (hn : n < 1000)
    (h : under1000T m = under1000T n) : m = n := by
  unfold under1000T at h
  by_cases h1 : m < 100 <;> by_cases h2 : n < 100
  · simp only [h1, h2, if_true, List.cons.injEq] at h
    exact under100_inj h1 h2 h.1
  · exfalso
    simp only [h1, h2, if_true, if_false] at h
    by_cases hz : n % 100 = 0 <;> simp [hz] at h
  · exfalso
    simp only [h1, h2, if_true, if_false] at h
    by_cases hz : m % 100 = 0 <;> simp [hz] at h
  · simp only [h1, h2, if_false, List.cons_append, List.nil_append,
      List.cons.injEq] at h
    obtain ⟨hh, -, htail⟩ := h
    have hdm : m / 100 < 20 := by omega
    have hdn : n / 100 < 20 := by omega
    have hdiv : m / 100 = n / 100 := by
      apply under100_inj (by omega) (by omega)
      rw [under100_eq_below20 hdm, under100_eq_below20 hdn]
      exact hh
    have hmod : m % 100 = n % 100 := by
      by_cases hz1 : m % 100 = 0 <;> by_cases hz2 : n % 100 = 0
      · omega
      · simp [hz1, hz2] at htail
      · simp [hz1, hz2] at htail
      · simp only [hz1, hz2, if_false, List.cons.injEq] at htail
        exact under100_inj (Nat.mod_lt m (by omega)) (Nat.mod_lt n (by omega)) htail.2.1
    omega

/-- Token decomposition of a thousands word: prefix tokens for the
thousands part, then the (unique) thousands marker, then the rest. -/
theorem numTokens_big {x : ℕ} (h1000 : 1000 ≤ x) :
    numTokens x = under1000T (x / 1000) ++
      (if x % 1000 = 0 then "thousand"
       else if x % 1000 < 100 then "thousand" else "thousand,") ::
      (if x % 1000 = 0 then []
       else if x % 1000 < 100 then ["and", under100 (x % 1000)]
       else under1000T (x % 1000)) := by
  have hx : ¬ x < 1000 := by omega
  unfold numTokens
  by_cases hz : x % 1000 = 0 <;> by_cases hs : x % 1000 < 100 <;>
    simp [hx, hz, hs]

/-- Every token of a below-one-million word is non-empty, space-free and
made of allowed characters. -/
theorem numTokens_tok_facts {n : ℕ} (hn : n < 1000000) :
    ∀ s ∈ numTokens n, s.data ≠ [] ∧ ' ' ∉ s.data ∧
      (∀ c ∈ s.data, allowedChar c = true) := by
  intro s hs
  by_cases h : n < 1000
  · unfold numTokens at hs
    simp only [h, if_true] at hs
    obtain ⟨h1, h2, -, h4⟩ := under1000T_tok_facts h s hs
    exact ⟨h1, h2, h4⟩
  · rw [numTokens_big (by omega)] at hs
    rcases List.mem_append.mp hs with hs | hs
    · obtain ⟨h1, h2, -, h4⟩ := under1000T_tok_facts (by omega : n / 1000 < 1000) s hs
      exact ⟨h1, h2, h4⟩
    · rcases List.mem_cons.mp hs with hs | hs
      · subst hs
        by_cases hz : n % 1000 = 0 <;> by_cases hc : n % 1000 < 100 <;>
          simp [hz, hc] <;> decide
      · by_cases hz : n % 1000 = 0
        · simp [hz] at hs
        · by_cases hc : n % 1000 < 100
          · simp only [hz, hc, if_false, if_true] at hs
            rcases List.mem_cons.mp hs with hs | hs
            · subst hs; refine ⟨by decide, by decide, by decide⟩
            · simp only [List.mem_singleton] at hs
              subst hs
              obtain ⟨h1, h2, -, -, -, -, h7⟩ := under100_facts (n % 1000) hc
              exact ⟨h1, h2, h7⟩
          · simp only [hz, hc, if_false] at hs
            obtain ⟨h1, h2, -, h4⟩ :=
              under1000T_tok_facts (by omega : n % 1000 < 1000) s hs
            exact ⟨h1, h2, h4⟩

/-- `numTokens` is injective below one million. -/
theorem numTokens_inj {m n : ℕ} (hm : m < 1000000) (hn : n < 1000000)
    (h : numTokens m = numTokens n) : m = n := by
  by_cases h1 : m < 1000 <;> by_cases h2 : n < 1000
  · unfold numTokens at h
    simp only [h1, h2, if_true] at h
    exact under1000T_inj h1 h2 h
  · exfalso
    have hL : numTokens m = under1000T m := by unfold numTokens; rw [if_pos h1]
    rw [hL, numTokens_big (show 1000 ≤ n by omega)] at h
    have hmem : (if n % 1000 = 0 then ("thousand" : String)
        else if n % 1000 < 100 then "thousand" else "thousand,") ∈ under1000T m := by
      rw [h]
      exact List.mem_append.mpr (Or.inr (List.mem_cons_self _ _))
    have := (under1000T_tok_facts h1 _ hmem).2.2.1
    by_cases hz : n % 1000 = 0 <;> by_cases hc : n % 1000 < 100 <;>
      simp [hz, hc, isThTok] at this
  · exfalso
    have hR : numTokens n = under1000T n := by unfold numTokens; rw [if_pos h2]
    rw [hR, numTokens_big (show 1000 ≤ m by omega)] at h
    have hmem : (if m % 1000 = 0 then ("thousand" : String)
        else if m % 1000 < 100 then "thousand" else "thousand,") ∈ under1000T n := by
      rw [← h]
      exact List.mem_append.mpr (Or.inr (List.mem_cons_self _ _))
    have := (under1000T_tok_facts h2 _ hmem).2.2.1
    by_cases hz : m % 1000 = 0 <;> by_cases hc : m % 1000 < 100 <;>
      simp [hz, hc, isThTok] at this
  · rw [numTokens_big (by omega), numTokens_big (by omega)] at h
    have hthm : isThTok (if m % 1000 = 0 then ("thousand" : String)
        else if m % 1000 < 100 then "thousand" else "thousand,") = true := by
      by_cases hz : m % 1000 = 0 <;> by_cases hc : m % 1000 < 100 <;>
        simp [hz, hc, isThTok]
    have hthn : isThTok (if n % 1000 = 0 then ("thousand" : String)
        else if n % 1000 < 100 then "thousand" else "thousand,") = true := by
      by_cases hz : n % 1000 = 0 <;> by_cases hc : n % 1000 < 100 <;>
        simp [hz, hc, isThTok]
    obtain ⟨hpre, hth, hrest⟩ := marker_split isThTok _ _ _ _ _ _
      (fun y hy => (under1000T_tok_facts (by omega : m / 1000 < 1000) y hy).2.2.1)
      (fun y hy => (under1000T_tok_facts (by omega : n / 1000 < 1000) y hy).2.2.1)
      hthm hthn h
    have hdiv : m / 1000 = n / 1000 :=
      under1000T_inj (by omega) (by omega) hpre
    have hmod : m % 1000 = n % 1000 := by
      by_cases hz1 : m % 1000 = 0 <;> by_cases hc1 : m % 1000 < 100 <;>
        by_cases hz2 : n % 1000 = 0 <;> by_cases hc2 : n % 1000 < 100 <;>
        simp only [hz1, hc1, hz2, hc2, if_true, if_false] at hth hrest
      · omega
      · omega
      · simp at hrest
      · simp at hth
      · omega
      · omega
      · simp at hrest
      · simp at hth
      · simp at hrest
      · simp at hrest
      · simp only [List.cons.injEq] at hrest
        exact under100_inj hc1 hc2 hrest.2.1
      · simp at hth
      · simp at hth
      · simp at hth
      · simp at hth
      · exact under1000T_inj (by omega) (by omega) hrest
    omega

/-- Character-list version of the space join. -/
def joinSpD : List (List Char) → List Char
  | [] => []
  | [x] => x
  | x :: y :: ys => x ++ ' ' :: joinSpD (y :: ys)

/-- `joinTok` at the character level. -/
theorem joinTok_data : ∀ l : List String, (joinTok l).data = joinSpD (l.map String.data)
  | [] => rfl
  | [x] => rfl
  | x :: y :: ys => by
    show (x ++ " " ++ joinTok (y :: ys)).data = x.data ++ ' ' :: joinSpD ((y :: ys).map String.data)
    rw [String.data_append, String.data_append, ← joinTok_data (y :: ys),
      List.append_assoc]
    rfl

/-- Joining space-free non-empty chunks with spaces is injective. -/
theorem joinSpD_inj : ∀ (l1 l2 : List (List Char)),
    (∀ x ∈ l1, x ≠ [] ∧ ' ' ∉ x) → (∀ x ∈ l2, x ≠ [] ∧ ' ' ∉ x) →
    joinSpD l1 = joinSpD l2 → l1 = l2 := by
  intro l1
  induction l1 with
  | nil =>
    intro l2 _ hf2 h
    cases l2 with
    | nil => rfl
    | cons z zs =>
      exfalso
      cases zs with
      | nil => exact (hf2 z (by simp)).1 h.symm
      | cons w ws =>
        have hlen : ([] : List Char).length = (z ++ ' ' :: joinSpD (w :: ws)).length :=
          congrArg List.length h
        simp at hlen
        omega
  | cons x t ih =>
    intro l2 hf1 hf2 h
    cases t with
    | nil =>
      cases l2 with
      | nil => exact absurd h (hf1 x (by simp)).1
      | cons z zs =>
        cases zs with
        | nil => simp only [joinSpD] at h; rw [h]
        | cons w ws =>
          exfalso
          have hsp : ' ' ∈ x := by
            show ' ' ∈ x
            rw [show joinSpD [x] = x from rfl] at h
            rw [h]
            exact List.mem_append_right _ (List.mem_cons_self _ _)
          exact (hf1 x (by simp)).2 hsp
    | cons y ys =>
      cases l2 with
      | nil =>
        exfalso
        have : ((x :: y :: ys).map id).length = ([] : List (List Char)).length → False := by simp
        have hlen : (x ++ ' ' :: joinSpD (y :: ys)).length = ([] : List Char).length :=
          congrArg List.length h
        simp at hlen
      | cons z zs =>
        cases zs with
        | nil =>
          exfalso
          have hsp : ' ' ∈ z := by
            rw [show joinSpD [z] = z from rfl] at h
            rw [← h]
            exact List.mem_append_right _ (List.mem_cons_self _ _)
          exact (hf2 z (by simp)).2 hsp
        | cons w ws =>
          have hx := hf1 x (by simp)
          have hz := hf2 z (by simp)
          obtain ⟨hxz, -, hrest⟩ := marker_split (fun c => c == ' ') x z ' ' ' '
            (joinSpD (y :: ys)) (joinSpD (w :: ws))
            (fun c hc => by
              simp only [beq_eq_false_iff_ne]
              intro hce; exact hx.2 (hce ▸ hc))
            (fun c hc => by
              simp only [beq_eq_false_iff_ne]
              intro hce; exact hz.2 (hce ▸ hc))
            (by simp) (by simp) h
          have := ih (w :: ws)
            (fun u hu => hf1 u (List.mem_cons_of_mem x hu))
            (fun u hu => hf2 u (List.mem_cons_of_mem z hu)) hrest
          rw [hxz, this]

/-- `words` is injective below one million: distinct room indices get
distinct English names. -/
theorem words_inj {m n : ℕ} (hm : m < 1000000) (hn : n < 1000000)
    (h : words m = words n) : m = n := by
  have hd : (words m).data = (words n).data := congrArg String.data h
  rw [words, words, joinTok_data, joinTok_data] at hd
  have hmap : (numTokens m).map String.data = (numTokens n).map String.data := by
    apply joinSpD_inj _ _ _ _ hd
    · intro x hx
      obtain ⟨s, hs, rfl⟩ := List.mem_map.mp hx
      obtain ⟨h1, h2, -⟩ := numTokens_tok_facts hm s hs
      exact ⟨h1, h2⟩
    · intro x hx
      obtain ⟨s, hs, rfl⟩ := List.mem_map.mp hx
      obtain ⟨h1, h2, -⟩ := numTokens_tok_facts hn s hs
      exact ⟨h1, h2⟩
  have htok : numTokens m = numTokens n := by
    apply List.map_injective_iff.mpr _ hmap
    intro s t hst
    exact strData_inj hst
  exact numTokens_inj hm hn htok

/-- The title-case state (previous character is a letter) after a chunk. -/
def stAfter : Bool → List Char → Bool
  | st, [] => st
  | _, c :: cs => stAfter c.isAlpha cs

/-- `pyTitleGo` distributes over append, threading the state. -/
theorem pyTitleGo_append (st : Bool) (a b : List Char) :
    pyTitleGo st (a ++ b) = pyTitleGo st a ++ pyTitleGo (stAfter st a) b := by
  induction a generalizing st with
  | nil => rfl
  | cons c cs ih => simp [pyTitleGo, stAfter, ih]

/-- Lowercasing undoes title-casing on the characters of number words. -/
theorem toLower_titleChar : ∀ c ∈ allowedList,
    Char.toLower (titleChar false c) = c ∧ Char.toLower (titleChar true c) = c := by
  decide

/-- Lowercasing recovers an allowed-character chunk from its title-cased
form, whatever the incoming state. -/
theorem titleGo_toLower (l : List Char) :
    ∀ (st : Bool), (∀ c ∈ l, allowedChar c = true) →
      (pyTitleGo st l).map Char.toLower = l := by
  induction l with
  | nil => intro st _; rfl
  | cons c cs ih =>
    intro st hall
    have hc : c ∈ allowedList := by
      have := hall c (by simp)
      unfold allowedChar at this
      simpa [List.contains_iff_exists_mem_beq, beq_iff_eq] using this
    have hlow : Char.toLower (titleChar st c) = c := by
      cases st
      · exact (toLower_titleChar c hc).1
      · exact (toLower_titleChar c hc).2
    simp [pyTitleGo, hlow, ih c.isAlpha fun d hd => hall d (List.mem_cons_of_mem c hd)]

/-- All characters of a joined token list are allowed when all tokens are. -/
theorem joinTok_chars : ∀ l : List String,
    (∀ s ∈ l, ∀ c ∈ s.data, allowedChar c = true) →
    ∀ c ∈ (joinTok l).data, allowedChar c = true := by
  intro l
  induction l with
  | nil => intro _ c hc; cases hc
  | cons x t ih =>
    intro hall c hc
    cases t with
    | nil => exact hall x (by simp) c hc
    | cons y ys =>
      rw [joinTok_data] at hc
      show allowedChar c = true
      simp only [List.map_cons, joinSpD, List.mem_append, List.mem_cons] at hc
      rcases hc with hc | hc | hc
      · exact hall x (by simp) c hc
      · subst hc; decide
      · have : c ∈ (joinTok (y :: ys)).data := by
          rw [joinTok_data]; exact hc
        exact ih (fun s hs => hall s (List.mem_cons_of_mem x hs)) c this

/-- Characters of a below-one-million number word are allowed. -/
theorem words_chars_allowed {k : ℕ} (hk : k < 1000000) :
    ∀ c ∈ (words k).data, allowedChar c = true :=
  joinTok_chars (numTokens k) fun s hs => (numTokens_tok_facts hk s hs).2.2

/-- Room-name injectivity: with a fixed prefix, title-cased number words
stay distinct for distinct indices below one million. -/
theorem pyTitle_name_inj (pre : String) {m n : ℕ}
    (hm : m < 1000000) (hn : n < 1000000)
    (h : pyTitle (pre ++ " " ++ words m) = pyTitle (pre ++ " " ++ words n)) :
    m = n := by
  have hd : pyTitleGo false (pre ++ " " ++ words m).data
      = pyTitleGo false (pre ++ " " ++ words n).data := congrArg String.data h
  have hsplit : ∀ w : String, (pre ++ " " ++ w).data = (pre.data ++ [' ']) ++ w.data := by
    intro w
    rw [String.data_append, String.data_append]
  rw [hsplit (words m), hsplit (words n),
    pyTitleGo_append false (pre.data ++ [' ']) (words m).data,
    pyTitleGo_append false (pre.data ++ [' ']) (words n).data] at hd
  have hcancel : pyTitleGo (stAfter false (pre.data ++ [' '])) (words m).data
      = pyTitleGo (stAfter false (pre.data ++ [' '])) (words n).data :=
    List.append_cancel_left hd
  have hstate : ∀ st : Bool, stAfter st (pre.data ++ [' ']) = false := by
    intro st
    induction pre.data generalizing st with
    | nil => rfl
    | cons c cs ih => exact ih c.isAlpha
  rw [hstate] at hcancel
  have hwm : ((pyTitleGo false (words m).data).map Char.toLower) = (words m).data :=
    titleGo_toLower _ false (words_chars_allowed hm)
  have hwn : ((pyTitleGo false (words n).data).map Char.toLower) = (words n).data :=
    titleGo_toLower _ false (words_chars_allowed hn)
  have : (words m).data = (words n).data := by
    rw [← hwm, ← hwn, hcancel]
  exact words_inj hm hn (strData_inj this)

/-! ### Structure of the generated room list -/

/-- Row-major traversal of a rectangle, re-indexed by the linear index. -/
theorem range_flatMap_grid {α : Type} (H W : ℕ) (g : ℕ → ℕ → α) :
    (List.range H).flatMap (fun hi => (List.range W).map fun wi => g hi wi)
      = (List.range (H * W)).map (fun i => g (i / W) (i % W)) := by
  induction H with
  | zero => simp
  | succ H ih =>
    rw [List.range_succ, List.flatMap_append, ih, Nat.succ_mul, List.range_add,
      List.map_append]
    congr 1
    · simp only [List.flatMap_cons, List.flatMap_nil, List.append_nil]
      rw [List.map_map]
      apply List.map_congr_left
      intro wi hwi
      have hw : wi < W := List.mem_range.mp hwi
      have hW : 0 < W := by omega
      simp only [Function.comp_apply]
      congr 1
      · rw [Nat.mul_comm H W, Nat.mul_add_div hW, Nat.div_eq_of_lt hw, Nat.add_zero]
      · rw [Nat.mul_comm H W, Nat.mul_add_mod, Nat.mod_eq_of_lt hw]

/-- The list of grid positions in creation (row-major) order. -/
def posList (W H : ℕ) : List (ℕ × ℕ) :=
  (List.range (H * W)).map fun i => (i % W, i / W)

/-- Positions are pairwise distinct. -/
theorem posList_nodup (W H : ℕ) : (posList W H).Nodup := by
  apply List.Nodup.map_on _ (List.nodup_range _)
  intro x hx y hy hxy
  have h1 : x % W = y % W := congrArg Prod.fst hxy
  have h2 : x / W = y / W := congrArg Prod.snd hxy
  calc x = W * (x / W) + x % W := (Nat.div_add_mod x W).symm
    _ = W * (y / W) + y % W := by rw [h1, h2]
    _ = y := Nat.div_add_mod y W

/-- The positions cover exactly the rectangle. -/
theorem posList_mem {W H : ℕ} {q : ℕ × ℕ} :
    q ∈ posList W H ↔ q.1 < W ∧ q.2 < H := by
  constructor
  · intro hq
    obtain ⟨i, hi, rfl⟩ := List.mem_map.mp hq
    have hiR : i < H * W := List.mem_range.mp hi
    have hW : 0 < W := by
      rcases Nat.eq_zero_or_pos W with h | h
      · rw [h, Nat.mul_zero] at hiR; exact absurd hiR (Nat.not_lt_zero i)
      · exact h
    refine ⟨Nat.mod_lt _ hW, ?_⟩
    apply Nat.div_lt_of_lt_mul
    rw [Nat.mul_comm]
    exact hiR
  · rintro ⟨h1, h2⟩
    have hW : 0 < W := by omega
    have hlt : q.2 * W + q.1 < H * W := by
      have ha : q.2 * W + q.1 < (q.2 + 1) * W := by
        rw [Nat.succ_mul]
        exact Nat.add_lt_add_left h1 _
      exact lt_of_lt_of_le ha (Nat.mul_le_mul_right _ (by omega))
    apply List.mem_map.mpr
    refine ⟨q.2 * W + q.1, List.mem_range.mpr hlt, ?_⟩
    have hm : (q.2 * W + q.1) % W = q.1 := by
      rw [Nat.add_comm, Nat.add_mul_mod_self_right, Nat.mod_eq_of_lt h1]
    have hd : (q.2 * W + q.1) / W = q.2 := by
      rw [Nat.add_comm, Nat.add_mul_div_right _ _ hW, Nat.div_eq_of_lt h1,
        Nat.zero_add]
    simp only [hm, hd]

/-- Filtering a list on a value of an injective projection finds exactly the
one element carrying it. -/
theorem filter_eq_singleton_of_nodup {α β : Type} [DecidableEq β]
    {f : α → β} : ∀ {l : List α} (hnd : (l.map f).Nodup)
    {j : ℕ} (hj : j < l.length),
    l.filter (fun x => f x = f (l.get ⟨j, hj⟩)) = [l.get ⟨j, hj⟩] := by
  intro l
  induction l with
  | nil => intro _ j hj; cases hj
  | cons a tl ih =>
    intro hnd j hj
    rw [List.map_cons, List.nodup_cons] at hnd
    obtain ⟨ha, htl⟩ := hnd
    cases j with
    | zero =>
      simp only [List.get]
      rw [List.filter_cons_of_pos (by simp)]
      congr 1
      rw [List.filter_eq_nil_iff]
      intro x hx
      simp only [decide_eq_true_eq]
      intro hfx
      exact ha (hfx ▸ List.mem_map_of_mem f hx)
    | succ k =>
      have hk : k < tl.length := Nat.succ_lt_succ_iff.mp hj
      have hget : (a :: tl).get ⟨k + 1, hj⟩ = tl.get ⟨k, hk⟩ := rfl
      rw [hget, List.filter_cons_of_neg, ih htl hk]
      simp only [decide_eq_true_eq]
      intro hfa
      exact ha (hfa ▸ List.mem_map_of_mem f (tl.get_mem k hk))

/-- Filtering on a value the projection never takes yields nothing. -/
theorem filter_eq_nil_of_not_mem {α β : Type} [DecidableEq β]
    {l : List α} {f : α → β} {q : β} (h : q ∉ l.map f) :
    l.filter (fun x => f x = q) = [] := by
  rw [List.filter_eq_nil_iff]
  intro x hx
  simp only [decide_eq_true_eq]
  intro hfx
  exact h (hfx ▸ List.mem_map_of_mem f hx)

/-- The identifier the generator gives the room at position `q`
(0-based (col, row)): prefix, space, number word of `width*height` minus
the 0-based linear index, title-cased. -/
def nameFor (t : TerrainMaker) (q : ℕ × ℕ) : String :=
  pyTitle (t.name ++ " " ++ words (t.width * t.height - (q.2 * t.width + q.1)))

/-- Field values of a successfully built first-pass room. -/
theorem mkCell_some_fields {p : Perlin} {t : TerrainMaker} {cell : ℕ × ℕ} {r : Room}
    (h : t.mkCell p cell = some r) :
    r.name = pyTitle (t.name ++ " " ++
      words (t.width * t.height - (cell.1 * t.width + cell.2))) ∧
    r.position = (cell.2, cell.1) ∧
    r.value = translate_value ((t.values p).getD (cell.1 * t.width + cell.2) 0) 0 1 0
      ((t.conditions.length : ℤ) - 1) ∧
    pyIndex (t.conditions.map Prod.fst) (pyRound r.value) = some r.condition ∧
    r.description = t.description ∧ r.printed_name = t.printed_name ∧
    r.north = none ∧ r.south = none ∧ r.east = none ∧ r.west = none := by
  simp only [TerrainMaker.mkCell, Option.map_eq_some'] at h
  obtain ⟨cond, hidx, hr⟩ := h
  subst hr
  have e1 : t.width * t.height + 1 - (cell.1 * t.width + cell.2 + 1)
      = t.width * t.height - (cell.1 * t.width + cell.2) := by omega
  have e2 : cell.1 * t.width + cell.2 + 1 - 1 = cell.1 * t.width + cell.2 := by omega
  refine ⟨?_, rfl, ?_, hidx, rfl, rfl, rfl, rfl, rfl, rfl⟩
  · show pyTitle (t.name ++ " " ++
        words (t.width * t.height + 1 - (cell.1 * t.width + cell.2 + 1))) = _
    rw [e1]
  · show translate_value ((t.values p).getD (cell.1 * t.width + cell.2 + 1 - 1) 0)
        0 1 0 (((t.conditions.map Prod.fst).length : ℤ) - 1) = _
    rw [e2, List.length_map]

/-- The cell list, re-indexed linearly. -/
theorem cells_eq (t : TerrainMaker) :
    t.cells = (List.range (t.height * t.width)).map
      (fun i => (i / t.width, i % t.width)) :=
  range_flatMap_grid t.height t.width (fun hi wi => (hi, wi))

/-- Summary of the first pass: one room per cell in row-major order, with
the reversed-ordinal names, the grid positions, and no neighbor references
yet. -/
theorem pass1_spec {p : Perlin} {t : TerrainMaker} {out : List Room}
    (h : t.roomsPass1 p = some out) :
    out.length = t.height * t.width ∧
    out.map Room.name = (List.range (t.height * t.width)).map
      (fun i => pyTitle (t.name ++ " " ++ words (t.width * t.height - i))) ∧
    out.map Room.position = posList t.width t.height ∧
    ∀ r ∈ out, r.north = none ∧ r.south = none ∧ r.east = none ∧ r.west = none := by
  refine ⟨?_, ?_, ?_, ?_⟩
  · rw [seqMap_some_length h, cells_eq]
    simp
  · have hmap := seqMap_map_eq
      (g := Room.name)
      (h := fun cell : ℕ × ℕ => pyTitle (t.name ++ " " ++
        words (t.width * t.height - (cell.1 * t.width + cell.2))))
      (fun cell r hr => (mkCell_some_fields hr).1) h
    rw [hmap, cells_eq, List.map_map]
    apply List.map_congr_left
    intro i _
    simp only [Function.comp_apply]
    have harith : i / t.width * t.width + i % t.width = i := by
      rw [Nat.mul_comm]
      exact Nat.div_add_mod i t.width
    rw [harith]
  · have hmap := seqMap_map_eq
      (g := Room.position)
      (h := fun cell : ℕ × ℕ => (cell.2, cell.1))
      (fun cell r hr => (mkCell_some_fields hr).2.1) h
    rw [hmap, cells_eq, List.map_map]
    rfl
  · intro r hr
    obtain ⟨cell, -, hcell⟩ := seqMap_mem h r hr
    obtain ⟨-, -, -, -, -, -, h7, h8, h9, h10⟩ := mkCell_some_fields hcell
    exact ⟨h7, h8, h9, h10⟩

/-- Field-level description of the wiring pass for one room. -/
theorem wireRoom_spec (t : TerrainMaker) (out : List Room) (r : Room) :
    (wireRoom t out r).name = r.name ∧
    (wireRoom t out r).position = r.position ∧
    (wireRoom t out r).value = r.value ∧
    (wireRoom t out r).condition = r.condition ∧
    (wireRoom t out r).description = r.description ∧
    (wireRoom t out r).printed_name = r.printed_name ∧
    (wireRoom t out r).north = (if r.position.2 < t.height then
      ((out.filter fun s => s.position = (r.position.1, r.position.2 + 1)).getLast?).map Room.name
      else r.north) ∧
    (wireRoom t out r).south = (if 0 < r.position.2 then
      ((out.filter fun s => s.position = (r.position.1, r.position.2 - 1)).getLast?).map Room.name
      else r.south) ∧
    (wireRoom t out r).west = (if r.position.1 < t.width then
      ((out.filter fun s => s.position = (r.position.1 + 1, r.position.2)).getLast?).map Room.name
      else r.west) ∧
    (wireRoom t out r).east = (if 0 < r.position.1 then
      ((out.filter fun s => s.position = (r.position.1 - 1, r.position.2)).getLast?).map Room.name
      else r.east) := by
  unfold wireRoom
  by_cases h1 : r.position.2 < t.height <;> by_cases h2 : 0 < r.position.2 <;>
    by_cases h3 : r.position.1 < t.width <;> by_cases h4 : 0 < r.position.1 <;>
    simp [h1, h2, h3, h4]

/-- Backbone description of `TerrainMaker.__rooms` on success: room count,
row-major names and positions, and the four neighbor references of every
room (present exactly when the neighboring cell exists, referring to that
cell's identifier). -/
theorem rooms_spec {p : Perlin} {t : TerrainMaker} {rms : List Room}
    (h : t.rooms p = some rms) :
    rms.length = t.height * t.width ∧
    rms.map Room.name = (List.range (t.height * t.width)).map
      (fun i => pyTitle (t.name ++ " " ++ words (t.width * t.height - i))) ∧
    rms.map Room.position = posList t.width t.height ∧
    (∀ r ∈ rms,
      (r.position.1 < t.width ∧ r.position.2 < t.height) ∧
      r.name = nameFor t r.position ∧
      r.north = (if r.position.2 + 1 < t.height then
        some (nameFor t (r.position.1, r.position.2 + 1)) else none) ∧
      r.south = (if 0 < r.position.2 then
        some (nameFor t (r.position.1, r.position.2 - 1)) else none) ∧
      r.west = (if r.position.1 + 1 < t.width then
        some (nameFor t (r.position.1 + 1, r.position.2)) else none) ∧
      r.east = (if 0 < r.position.1 then
        some (nameFor t (r.position.1 - 1, r.position.2)) else none)) := by
  unfold TerrainMaker.rooms at h
  rw [Option.map_eq_some'] at h
  obtain ⟨out, hp1, hw⟩ := h
  subst hw
  obtain ⟨hlen, hname, hpos, hdirs⟩ := pass1_spec hp1
  have hndpos : (out.map Room.position).Nodup := by
    rw [hpos]; exact posList_nodup _ _
  have hget : ∀ (k : ℕ) (hk : k < out.length),
      (out.get ⟨k, hk⟩).position = (k % t.width, k / t.width) ∧
      (out.get ⟨k, hk⟩).name = nameFor t (k % t.width, k / t.width) := by
    intro k hk
    have hkHW : k < t.height * t.width := by rw [← hlen]; exact hk
    have e1 : (out.map Room.position).get ⟨k, by simpa using hk⟩
        = (out.get ⟨k, hk⟩).position := by
      rw [List.get_eq_getElem, List.get_eq_getElem, List.getElem_map]
    have e2 : (out.map Room.name).get ⟨k, by simpa using hk⟩
        = (out.get ⟨k, hk⟩).name := by
      rw [List.get_eq_getElem, List.get_eq_getElem, List.getElem_map]
    have hdm : k / t.width * t.width + k % t.width = k := by
      rw [Nat.mul_comm]; exact Nat.div_add_mod k t.width
    constructor
    · rw [← e1]
      simp only [hpos, List.get_eq_getElem, posList]
      simp [List.getElem_map]
    · rw [← e2]
      simp only [hname, List.get_eq_getElem]
      rw [List.getElem_map]
      simp only [List.getElem_range]
      unfold nameFor
      simp only []
      rw [hdm]
  have hfind : ∀ q : ℕ × ℕ, q.1 < t.width → q.2 < t.height →
      ∃ s, (out.filter fun x => x.position = q) = [s] ∧ s.name = nameFor t q := by
    intro q hq1 hq2
    have hW : 0 < t.width := by omega
    have hjlt : q.2 * t.width + q.1 < out.length := by
      rw [hlen]
      have ha : q.2 * t.width + q.1 < (q.2 + 1) * t.width := by
        rw [Nat.succ_mul]
        exact Nat.add_lt_add_left hq1 _
      exact lt_of_lt_of_le ha (Nat.mul_le_mul_right _ (by omega))
    obtain ⟨hgp, hgn⟩ := hget (q.2 * t.width + q.1) hjlt
    have hm : (q.2 * t.width + q.1) % t.width = q.1 := by
      rw [Nat.add_comm, Nat.add_mul_mod_self_right, Nat.mod_eq_of_lt hq1]
    have hd : (q.2 * t.width + q.1) / t.width = q.2 := by
      rw [Nat.add_comm, Nat.add_mul_div_right _ _ hW, Nat.div_eq_of_lt hq1,
        Nat.zero_add]
    have hgp2 : (out.get ⟨q.2 * t.width + q.1, hjlt⟩).position = q := by
      rw [hgp, hm, hd]
    refine ⟨out.get ⟨q.2 * t.width + q.1, hjlt⟩, ?_, ?_⟩
    · have hfs := filter_eq_singleton_of_nodup hndpos hjlt
      rw [hgp2] at hfs
      exact hfs
    · rw [hgn, hm, hd]
  have hnofind : ∀ q : ℕ × ℕ, ¬ (q.1 < t.width ∧ q.2 < t.height) →
      (out.filter fun x => x.position = q) = [] := by
    intro q hq
    apply filter_eq_nil_of_not_mem
    rw [hpos]
    intro hmem
    exact hq (posList_mem.mp hmem)
  refine ⟨?_, ?_, ?_, ?_⟩
  · rw [List.length_map, hlen]
  · rw [List.map_map, ← hname]
    apply List.map_congr_left
    intro r _
    exact (wireRoom_spec t out r).1
  · rw [List.map_map, ← hpos]
    apply List.map_congr_left
    intro r _
    exact (wireRoom_spec t out r).2.1
  · intro r hr
    obtain ⟨r0, hr0, hwr⟩ := List.mem_map.mp hr
    subst hwr
    obtain ⟨hn0, hs0, he0, hw0⟩ := hdirs r0 hr0
    obtain ⟨sp1, sp2, -, -, -, -, snorth, ssouth, swest, seast⟩ := wireRoom_spec t out r0
    have hbounds : r0.position.1 < t.width ∧ r0.position.2 < t.height := by
      apply posList_mem.mp
      rw [← hpos]
      exact List.mem_map_of_mem Room.position hr0
    obtain ⟨hx, hy⟩ := hbounds
    have hrname : r0.name = nameFor t r0.position := by
      obtain ⟨⟨k, hk⟩, hkeq⟩ := List.mem_iff_get.mp hr0
      obtain ⟨hgp, hgn⟩ := hget k hk
      rw [← hkeq, hgn, hgp]
    refine ⟨by rw [sp2]; exact ⟨hx, hy⟩, by rw [sp1, sp2]; exact hrname, ?_, ?_, ?_, ?_⟩
    · rw [snorth, sp2, if_pos hy]
      by_cases hyn : r0.position.2 + 1 < t.height
      · rw [if_pos hyn]
        obtain ⟨s, hfil, hsn⟩ := hfind (r0.position.1, r0.position.2 + 1) hx hyn
        rw [hfil]
        simp [hsn]
      · rw [if_neg hyn]
        rw [hnofind (r0.position.1, r0.position.2 + 1) (by
          intro hcon
          exact hyn hcon.2)]
        rfl
    · rw [ssouth, sp2]
      by_cases hys : 0 < r0.position.2
      · rw [if_pos hys, if_pos hys]
        obtain ⟨s, hfil, hsn⟩ := hfind (r0.position.1, r0.position.2 - 1) hx (by omega)
        rw [hfil]
        simp [hsn]
      · rw [if_neg hys, if_neg hys, hs0]
    · rw [swest, sp2, if_pos hx]
      by_cases hxw : r0.position.1 + 1 < t.width
      · rw [if_pos hxw]
        obtain ⟨s, hfil, hsn⟩ := hfind (r0.position.1 + 1, r0.position.2) hxw hy
        rw [hfil]
        simp [hsn]
      · rw [if_neg hxw]
        rw [hnofind (r0.position.1 + 1, r0.position.2) (by
          intro hcon
          exact hxw hcon.1)]
        rfl
    · rw [seast, sp2]
      by_cases hxe : 0 < r0.position.1
      · rw [if_pos hxe, if_pos hxe]
        obtain ⟨s, hfil, hsn⟩ := hfind (r0.position.1 - 1, r0.position.2) (by omega) hy
        rw [hfil]
        simp [hsn]
      · rw [if_neg hxe, if_neg hxe, he0]

/-! ### Success conditions for the generation pipeline -/

/-- Python `round` of a non-negative value is non-negative. -/
theorem pyRound_nonneg {q : ℚ} (h : 0 ≤ q) : 0 ≤ pyRound q := by
  simp only [pyRound]
  have hf : (0 : ℤ) ≤ ⌊q⌋ := Int.floor_nonneg.mpr h
  split
  · split <;> omega
  · exact le_trans hf (Int.floor_le_floor (by linarith))

/-- Python `round` does not exceed an integer upper bound of the value. -/
theorem pyRound_le {q : ℚ} {M : ℤ} (h : q ≤ (M : ℚ)) : pyRound q ≤ M := by
  simp only [pyRound]
  split
  · rename_i hhalf
    have hq : q = (⌊q⌋ : ℚ) + 1/2 := by linarith
    have hlt : ((⌊q⌋ : ℤ) : ℚ) < (M : ℚ) := by
      rw [hq] at h
      linarith
    have hle : ⌊q⌋ < M := by exact_mod_cast hlt
    split <;> omega
  · have h1 : ⌊q + 1/2⌋ ≤ ⌊(M : ℚ) + 1/2⌋ := Int.floor_le_floor (by linarith)
    have h2 : ⌊(M : ℚ) + 1/2⌋ = M := by
      rw [add_comm, Int.floor_add_int]
      norm_num
    rw [h2] at h1
    exact h1

/-- The grid mapping `translate_value v 0 1 0 M` is just `v * M`. -/
theorem translate_value_grid (v M : ℚ) : translate_value v 0 1 0 M = v * M := by
  unfold translate_value
  ring_nf

/-- Indexing a list at an in-range non-negative index succeeds. -/
theorem pyIndex_isSome {α : Type} {xs : List α} {i : ℤ}
    (h0 : 0 ≤ i) (hlt : i.toNat < xs.length) : (pyIndex xs i).isSome := by
  unfold pyIndex
  rw [if_pos h0, List.getElem?_eq_getElem hlt]
  rfl

/-- Indexing the empty list always raises. -/
theorem pyIndex_nil {α : Type} (i : ℤ) : pyIndex ([] : List α) i = none := by
  unfold pyIndex
  split
  · rfl
  · split <;> rfl

/-- A member of the noise-value list is a noise sample. -/
theorem values_mem {p : Perlin} {t : TerrainMaker} {v : ℚ}
    (h : v ∈ t.values p) : ∃ x y, v = t.noise p x y := by
  unfold TerrainMaker.values at h
  rw [List.mem_flatMap] at h
  obtain ⟨hi, -, hmem⟩ := h
  rw [List.mem_map] at hmem
  obtain ⟨wi, -, hv⟩ := hmem
  exact ⟨_, _, hv.symm⟩

/-- A list member-or-default split for `getD`. -/
theorem getD_mem_or {α : Type} (l : List α) (i : ℕ) (d : α) :
    l.getD i d ∈ l ∨ l.getD i d = d := by
  by_cases h : i < l.length
  · left
    rw [List.getD_eq_getElem l d h]
    exact List.getElem_mem h
  · right
    rw [List.getD_eq_default l d (by omega)]

/-- When the configuration has at least one category and the noise field
stays in the nominal `[0, 1]` band, every cell builds successfully. -/
theorem mkCell_isSome {p : Perlin} {t : TerrainMaker}
    (hc : t.conditions ≠ [])
    (hv : ∀ x y, 0 ≤ t.noise p x y ∧ t.noise p x y ≤ 1)
    (cell : ℕ × ℕ) : (t.mkCell p cell).isSome := by
  have hlen : 1 ≤ t.conditions.length := by
    cases hcl : t.conditions with
    | nil => exact absurd hcl hc
    | cons a l => simp
  simp only [TerrainMaker.mkCell, Nat.add_sub_cancel]
  set vals := t.values p with hvals
  set keys := t.conditions.map Prod.fst with hkeys
  have hklen : 1 ≤ keys.length := by rw [hkeys]; simpa using hlen
  set v := vals.getD (cell.1 * t.width + cell.2) 0 with hvdef
  have hv01 : 0 ≤ v ∧ v ≤ 1 := by
    rcases getD_mem_or vals (cell.1 * t.width + cell.2) 0 with h | h
    · obtain ⟨x, y, hxy⟩ := values_mem (hvals ▸ h)
      rw [hvdef, hxy]
      exact hv x y
    · rw [hvdef, h]
      norm_num
  set M : ℤ := (keys.length : ℤ) - 1 with hMdef
  have hcast : (((keys.length : ℤ) : ℚ)) - 1 = (M : ℚ) := by
    rw [hMdef]
    push_cast
    ring
  have hM0 : 0 ≤ M := by rw [hMdef]; omega
  rw [hcast]
  have hval : translate_value v 0 1 0 (M : ℚ) = v * M := translate_value_grid v M
  have hb1 : 0 ≤ pyRound (translate_value v 0 1 0 (M : ℚ)) := by
    rw [hval]
    apply pyRound_nonneg
    apply mul_nonneg hv01.1
    exact_mod_cast hM0
  have hb2 : pyRound (translate_value v 0 1 0 (M : ℚ)) ≤ M := by
    rw [hval]
    apply pyRound_le
    calc v * (M : ℚ) ≤ 1 * (M : ℚ) :=
          mul_le_mul_of_nonneg_right hv01.2 (by exact_mod_cast hM0)
      _ = (M : ℚ) := one_mul _
  have hidx : (pyIndex keys
      (pyRound (translate_value v 0 1 0 (M : ℚ)))).isSome := by
    apply pyIndex_isSome hb1
    have htn : (pyRound (translate_value v 0 1 0 (M : ℚ))).toNat ≤ M.toNat :=
      Int.toNat_le_toNat hb2
    have hMN : M.toNat = keys.length - 1 := by rw [hMdef]; omega
    omega
  obtain ⟨c, hcv⟩ := Option.isSome_iff_exists.mp hidx
  rw [hcv]
  rfl

/-- A `seqMap` over everywhere-successful elements succeeds. -/
theorem seqMap_isSome {α β : Type} {f : α → Option β} :
    ∀ {l : List α}, (∀ x ∈ l, (f x).isSome) → ∃ ys, seqMap f l = some ys := by
  intro l
  induction l with
  | nil => intro _; exact ⟨[], rfl⟩
  | cons x xs ih =>
    intro h
    obtain ⟨y, hy⟩ := Option.isSome_iff_exists.mp (h x (by simp))
    obtain ⟨ys, hys⟩ := ih fun z hz => h z (List.mem_cons_of_mem x hz)
    exact ⟨y :: ys, by simp [seqMap, hy, hys]⟩

/-- A non-empty `seqMap` whose elements all fail fails. -/
theorem seqMap_none {α β : Type} {f : α → Option β} {l : List α}
    (hne : l ≠ []) (h : ∀ x ∈ l, f x = none) : seqMap f l = none := by
  cases l with
  | nil => exact absurd rfl hne
  | cons x xs => simp [seqMap, h x (by simp)]

/-- Room construction succeeds whenever at least one category is configured
and the noise keeps to its nominal band. -/
theorem rooms_isSome {p : Perlin} {t : TerrainMaker}
    (hc : t.conditions ≠ [])
    (hv : ∀ x y, 0 ≤ t.noise p x y ∧ t.noise p x y ≤ 1) :
    ∃ rms, t.rooms p = some rms := by
  obtain ⟨out, hout⟩ := seqMap_isSome fun cell _ => mkCell_isSome hc hv cell
  exact ⟨out.map (wireRoom t out), by
    unfold TerrainMaker.rooms TerrainMaker.roomsPass1
    rw [show seqMap (t.mkCell p) t.cells = some out from hout]
    rfl⟩

/-- Characterization of the `__regions` loop: it always succeeds once the
rooms build, its regions (beyond the accumulator) carry exactly the keys
with at least one matching room, in key order, and each region's membership
list is the (non-empty) list of names of the rooms with its condition. -/
theorem regionsGo_spec {p : Perlin} {t : TerrainMaker} {rms : List Room}
    (h : t.rooms p = some rms) :
    ∀ (ks : List String) (acc : List Region),
      ∃ regs, t.regionsGo p ks acc = some regs ∧
        regs.map Region.condition = acc.map Region.condition ++
          ks.filter (fun k =>
            ((rms.filter fun r => r.condition = k).map Room.name).length ≠ 0) ∧
        (∀ reg ∈ regs, reg ∈ acc ∨
          (reg.rooms = ((rms.filter fun r => r.condition = reg.condition).map Room.name) ∧
           reg.rooms ≠ [] ∧
           reg.name = pyTitle ("The " ++ reg.condition ++ " " ++ t.region))) := by
  intro ks
  induction ks with
  | nil =>
    intro acc
    refine ⟨acc, rfl, by simp, fun reg hreg => Or.inl hreg⟩
  | cons k ks ih =>
    intro acc
    by_cases hk : ((rms.filter fun r => r.condition = k).map Room.name).length ≠ 0
    · obtain ⟨regs, hgo, hconds, hmem⟩ := ih (acc ++
        [{ name := pyTitle ("The " ++ k ++ " " ++ t.region)
           condition := k
           rooms := (rms.filter fun r => r.condition = k).map Room.name }])
      refine ⟨regs, ?_, ?_, ?_⟩
      · show TerrainMaker.regionsGo p t (k :: ks) acc = some regs
        unfold TerrainMaker.regionsGo
        rw [h]
        dsimp only
        rw [if_pos hk]
        exact hgo
      · rw [hconds, List.filter_cons_of_pos (by simpa using hk), List.map_append]
        simp
      · intro reg hreg
        rcases hmem reg hreg with hacc | hgood
        · rcases List.mem_append.mp hacc with hacc | hnew
          · exact Or.inl hacc
          · simp only [List.mem_singleton] at hnew
            subst hnew
            refine Or.inr ⟨rfl, by simpa using hk, rfl⟩
        · exact Or.inr hgood
    · obtain ⟨regs, hgo, hconds, hmem⟩ := ih acc
      refine ⟨regs, ?_, ?_, hmem⟩
      · show TerrainMaker.regionsGo p t (k :: ks) acc = some regs
        unfold TerrainMaker.regionsGo
        rw [h]
        dsimp only
        rw [if_neg hk]
        exact hgo
      · rw [hconds, List.filter_cons_of_neg (by simpa using hk)]

/-- `__regions` succeeds whenever `__rooms` does. -/
theorem regions_spec {p : Perlin} {t : TerrainMaker} {rms : List Room}
    (h : t.rooms p = some rms) :
    ∃ regs, t.regions p = some regs ∧
      regs.map Region.condition = (t.conditions.map Prod.fst).filter (fun k =>
        ((rms.filter fun r => r.condition = k).map Room.name).length ≠ 0) ∧
      (∀ reg ∈ regs,
        reg.rooms = ((rms.filter fun r => r.condition = reg.condition).map Room.name) ∧
        reg.rooms ≠ [] ∧
        reg.name = pyTitle ("The " ++ reg.condition ++ " " ++ t.region)) := by
  obtain ⟨regs, hgo, hconds, hmem⟩ := regionsGo_spec h (t.conditions.map Prod.fst) []
  refine ⟨regs, hgo, by simpa using hconds, fun reg hreg => ?_⟩
  rcases hmem reg hreg with hacc | hgood
  · cases hacc
  · exact hgood

/-- `__conditions` succeeds whenever `__rooms` does. -/
theorem conditionsBlock_some {p : Perlin} {t : TerrainMaker} {rms : List Room}
    (h : t.rooms p = some rms) : ∃ s, t.conditionsBlock p = some s := by
  obtain ⟨regs, hregs, -, -⟩ := regions_spec h
  unfold TerrainMaker.conditionsBlock
  rw [hregs]
  exact ⟨_, rfl⟩

/-- `render` succeeds whenever `__rooms` does. -/
theorem render_some {p : Perlin} {t : TerrainMaker} {rms : List Room}
    (h : t.rooms p = some rms) : ∃ out, t.render p = some out := by
  obtain ⟨s, hs⟩ := conditionsBlock_some h
  obtain ⟨regs, hregs, -, -⟩ := regions_spec h
  unfold TerrainMaker.render
  rw [hs, h, hregs]
  exact ⟨_, rfl⟩

/-- Decomposition of a successful `render`. -/
theorem render_some_eq {p : Perlin} {t : TerrainMaker} {out : String}
    (h : t.render p = some out) :
    ∃ c rms regs, t.conditionsBlock p = some c ∧ t.rooms p = some rms ∧
      t.regions p = some regs ∧
      out = pyJoin "\n\n" ([c] ++ rms.map Room.render ++ regs.map Region.render) := by
  unfold TerrainMaker.render at h
  split at h
  · rename_i c rms regs hc hr hg
    exact ⟨c, rms, regs, hc, hr, hg, (Option.some_inj.mp h).symm⟩
  · cases h

/-- The room the first pass builds when exactly one category is configured:
the Value Mapper's target range collapses to the point 0, so the value is 0
and the condition is the sole key, for every noise oracle. -/
def singleRoom (t : TerrainMaker) (k : String) (cell : ℕ × ℕ) : Room :=
  { name := pyTitle (t.name ++ " " ++
      words (t.width * t.height + 1 - (cell.1 * t.width + cell.2 + 1)))
    value := 0
    condition := k
    position := (cell.2, cell.1)
    description := t.description
    printed_name := t.printed_name
    north := none, south := none, east := none, west := none }

/-- With a single configured category every cell builds `singleRoom`. -/
theorem mkCell_single {p : Perlin} {t : TerrainMaker} {k d : String}
    (hc : t.conditions = [(k, d)]) (cell : ℕ × ℕ) :
    t.mkCell p cell = some (singleRoom t k cell) := by
  simp only [TerrainMaker.mkCell, hc, List.map_cons, List.map_nil, List.length_cons,
    List.length_nil, Nat.zero_add]
  rw [show ((((1:ℕ):ℤ):ℚ) - 1 : ℚ) = 0 by norm_num]
  rw [translate_value_grid, mul_zero]
  rw [show pyRound 0 = 0 by norm_num [pyRound]]
  rw [show pyIndex [k] (0:ℤ) = some k by simp [pyIndex]]
  rfl

/-- With a single configured category the two-pass build yields the wired
`singleRoom` grid, whatever the noise. -/
theorem rooms_single {p : Perlin} {t : TerrainMaker} {k d : String}
    (hc : t.conditions = [(k, d)]) :
    t.rooms p = some ((t.cells.map (singleRoom t k)).map
      (wireRoom t (t.cells.map (singleRoom t k)))) := by
  have h1 : t.roomsPass1 p = some (t.cells.map (singleRoom t k)) :=
    seqMap_of_forall fun cell _ => mkCell_single hc cell
  unfold TerrainMaker.rooms
  rw [h1]
  rfl

/-- `strip` is the identity on a string with non-whitespace first and last
characters. -/
theorem pythonStrip_id {s : String} {c1 : Char} {l1 : List Char}
    (h1 : s.data = c1 :: l1) (hc1 : pyIsSpace c1 = false)
    {l2 : List Char} {c2 : Char} (h2 : s.data = l2 ++ [c2])
    (hc2 : pyIsSpace c2 = false) : pythonStrip s = s := by
  apply strData_inj
  show pyStripData s.data = s.data
  unfold pyStripData
  have hd : s.data.dropWhile pyIsSpace = s.data := by
    rw [h1, List.dropWhile_cons, hc1]
    simp
  rw [hd]
  have hrev : s.data.reverse = c2 :: l2.reverse := by
    rw [h2]
    simp
  rw [hrev, List.dropWhile_cons, hc2]
  simp only [Bool.false_eq_true, if_false]
  rw [← hrev, List.reverse_reverse]

/-- String append is associative. -/
theorem strAppend_assoc (a b c : String) : (a ++ b) ++ c = a ++ (b ++ c) := by
  apply strData_inj
  simp [String.data_append, List.append_assoc]

/-- Joining a list with a known last element splits off that element. -/
theorem pyJoin_concat (sep : String) (z : String) :
    ∀ L : List String, ∃ pre : String, pyJoin sep (L ++ [z]) = pre ++ z := by
  intro L
  induction L with
  | nil => exact ⟨"", rfl⟩
  | cons x L ih =>
    obtain ⟨pre, hpre⟩ := ih
    cases L with
    | nil =>
      exact ⟨x ++ sep, rfl⟩
    | cons y ys =>
      refine ⟨(x ++ sep) ++ pre, ?_⟩
      show x ++ sep ++ pyJoin sep ((y :: ys) ++ [z]) = x ++ sep ++ pre ++ z
      rw [hpre, ← strAppend_assoc]

/-- A string starting with the letter A, after appending. -/
theorem startsA (x b : String) (h : ∃ l, x.data = 'A' :: l) :
    ∃ l, (x ++ b).data = 'A' :: l := by
  obtain ⟨l, hl⟩ := h
  exact ⟨l ++ b.data, by rw [String.data_append, hl]; rfl⟩

/-! ### Concrete fixtures used by witnesses and counterexamples -/

/-- A constant-zero noise oracle; the biased octave sum is then 1/2. -/
def constPerlin : Perlin := fun _ _ _ _ => 0

/-- A constant noise oracle whose biased octave sum is exactly 1. -/
def cexPerlin : Perlin := fun _ _ _ _ => 4/15

/-- A 2 × 2 grid with one category. -/
def tm22 : TerrainMaker :=
  TerrainMaker.make 2 2 3 "Room" "d" "i" "Reg" "P" [("a", "x")]

/-- A 2 × 1 grid with one category. -/
def tmC2 : TerrainMaker :=
  TerrainMaker.make 2 1 0 "Room" "d" "i" "Reg" "P" [("a", "x")]

/-- A 1 × 1 grid with two categories. -/
def tmC3 : TerrainMaker :=
  TerrainMaker.make 1 1 0 "R" "d" "i" "Reg" "P" [("a", "x"), ("b", "y")]

/-- A 1 × 1 grid with one category. -/
def tm11 : TerrainMaker :=
  TerrainMaker.make 1 1 0 "R" "d" "i" "Reg" "P" [("a", "x")]

/-- The wired rooms of `tm22` (computed by the model). -/
def tm22Rooms : List Room :=
  [{ name := "Room Four", value := 0, condition := "a", position := (0, 0),
     description := "d", printed_name := "P",
     north := some "Room Two", south := none, east := none, west := some "Room Three" },
   { name := "Room Three", value := 0, condition := "a", position := (1, 0),
     description := "d", printed_name := "P",
     north := some "Room One", south := none, east := some "Room Four", west := none },
   { name := "Room Two", value := 0, condition := "a", position := (0, 1),
     description := "d", printed_name := "P",
     north := none, south := some "Room Four", east := none, west := some "Room One" },
   { name := "Room One", value := 0, condition := "a", position := (1, 1),
     description := "d", printed_name := "P",
     north := none, south := some "Room Three", east := some "Room Two", west := none }]

/-- Concrete evaluation of the 2 × 2 grid under the constant oracle. -/
theorem tm22_rooms_eval : tm22.rooms constPerlin = some tm22Rooms := by
  rw [rooms_single (p := constPerlin) (k := "a") (d := "x") rfl]
  decide

/-- The wired rooms of `tmC2`. -/
def c2Rooms : List Room :=
  [{ name := "Room Two", value := 0, condition := "a", position := (0, 0),
     description := "d", printed_name := "P",
     north := none, south := none, east := none, west := some "Room One" },
   { name := "Room One", value := 0, condition := "a", position := (1, 0),
     description := "d", printed_name := "P",
     north := none, south := none, east := some "Room Two", west := none }]

/-- Concrete evaluation of the 2 × 1 grid under the constant oracle. -/
theorem tmC2_rooms_eval : tmC2.rooms constPerlin = some c2Rooms := by
  rw [rooms_single (p := constPerlin) (k := "a") (d := "x") rfl]
  decide

/-- The single wired room of `tm11`. -/
def tm11Rooms : List Room :=
  [{ name := "R One", value := 0, condition := "a", position := (0, 0),
     description := "d", printed_name := "P",
     north := none, south := none, east := none, west := none }]

/-- Concrete evaluation of the 1 × 1 grid under the constant oracle. -/
theorem tm11_rooms_eval : tm11.rooms constPerlin = some tm11Rooms := by
  rw [rooms_single (p := constPerlin) (k := "a") (d := "x") rfl]
  decide

/-! ### The claims -/

/-- C1 (counterexample): on `["A", "B", "C"]` with conjunction "and" the
shared formatter returns "A, B and C" — the final `replace` removes the
Oxford comma — so the claimed output "A, B, and C" is wrong. -/
theorem c1_counterexample :
    pretty_list ["A", "B", "C"] "and" = "A, B and C" ∧
    pretty_list ["A", "B", "C"] "and" ≠ "A, B, and C" :=
  ⟨by decide, by decide⟩

/-- C1 (amended): the shared list-formatting function satisfies the four
boundary cases with the three-element result "A, B and C" (comma-joined,
final item prefixed by the conjunction, and the comma before the
conjunction removed — no Oxford comma). -/
theorem c1_pretty_list_boundary :
    pretty_list [] "and" = "" ∧
    pretty_list ["A"] "and" = "A" ∧
    pretty_list ["A", "B"] "and" = "A and B" ∧
    pretty_list ["A", "B", "C"] "and" = "A, B and C" :=
  ⟨by decide, by decide, by decide, by decide⟩

/-- C6: generation with an empty category mapping terminates with an error
(an uncaught `IndexError` from `keys[round(value)]` on the first cell)
before any output text is produced: `render` yields nothing at all. -/
theorem c6_empty_conditions_fatal (p : Perlin) (width height seed : ℤ)
    (name description initial region printed_name : String) :
    (TerrainMaker.make width height seed name description initial region
      printed_name []).render p = none := by
  set t := TerrainMaker.make width height seed name description initial region
    printed_name [] with ht
  have hcond : t.conditions = [] := rfl
  have hW : 1 ≤ t.width := by
    show 1 ≤ (max 1 width).toNat
    have h1 : (1 : ℤ) ≤ max 1 width := le_max_left 1 width
    have := Int.toNat_le_toNat h1
    simpa using this
  have hH : 1 ≤ t.height := by
    show 1 ≤ (max 1 height).toNat
    have h1 : (1 : ℤ) ≤ max 1 height := le_max_left 1 height
    have := Int.toNat_le_toNat h1
    simpa using this
  have hcells : t.cells ≠ [] := by
    rw [cells_eq]
    intro hnil
    have hlen : t.height * t.width = 0 := by
      simpa using congrArg List.length hnil
    rcases Nat.mul_eq_zero.mp hlen with h | h <;> omega
  have hmk : ∀ cell ∈ t.cells, t.mkCell p cell = none := by
    intro cell _
    simp only [TerrainMaker.mkCell, hcond, List.map_nil]
    rw [pyIndex_nil]
    rfl
  have hrooms : t.rooms p = none := by
    unfold TerrainMaker.rooms TerrainMaker.roomsPass1
    rw [seqMap_none hcells hmk]
    rfl
  unfold TerrainMaker.render
  rw [hrooms]
  cases t.conditionsBlock p <;> cases t.regions p <;> rfl

/-- C7: with exactly one configured category the run succeeds for every
grid size, seed and noise field: the Value Mapper's target range collapses
to the point 0, every room gets value 0 and the sole category, and `render`
produces output. -/
theorem c7_single_category (p : Perlin) (width height seed : ℤ)
    (name description initial region printed_name k d : String) :
    ∃ rms, (TerrainMaker.make width height seed name description initial region
        printed_name [(k, d)]).rooms p = some rms ∧
      (∀ r ∈ rms, r.value = 0 ∧ r.condition = k) ∧
      ((TerrainMaker.make width height seed name description initial region
        printed_name [(k, d)]).render p).isSome := by
  set t := TerrainMaker.make width height seed name description initial region
    printed_name [(k, d)] with ht
  have hc : t.conditions = [(k, d)] := rfl
  have hr := rooms_single (p := p) hc
  refine ⟨_, hr, ?_, ?_⟩
  · intro r hrm
    obtain ⟨r0, hr0, hwr⟩ := List.mem_map.mp hrm
    obtain ⟨cell, -, hcell⟩ := List.mem_map.mp hr0
    subst hwr
    obtain ⟨-, -, hv', hc', -, -, -, -, -, -⟩ := wireRoom_spec t _ r0
    constructor
    · rw [hv', ← hcell]
      rfl
    · rw [hc', ← hcell]
      rfl
  · obtain ⟨out, hout⟩ := render_some hr
    rw [hout]
    rfl

/-- C8: the Value Mapper inverts itself under swapped ranges.  In the
rational model the round trip is exact (floats would recover `v` only up to
rounding, which exactness subsumes). -/
theorem c8_translate_roundtrip (v a b c d : ℚ) (hab : a ≠ b) (hcd : c ≠ d) :
    translate_value (translate_value v a b c d) c d a b = v := by
  have h1 : b - a ≠ 0 := sub_ne_zero_of_ne (Ne.symm hab)
  have h2 : d - c ≠ 0 := sub_ne_zero_of_ne (Ne.symm hcd)
  unfold translate_value
  field_simp
  ring

/-- C8 witness: the round trip at `v = 3` between `[0, 2]` and `[5, 9]`. -/
theorem c8_witness :
    (0 : ℚ) ≠ 2 ∧ (5 : ℚ) ≠ 9 ∧
    translate_value (translate_value 3 0 2 5 9) 5 9 0 2 = 3 :=
  ⟨by norm_num, by norm_num,
    c8_translate_roundtrip 3 0 2 5 9 (by norm_num) (by norm_num)⟩

/-- C9: generation is deterministic.  The noise library is modelled as a
pure oracle of (octaves, seed, x, y) — exactly its documented seeded
determinism — so two runs over equal configurations render byte-identical
text, and the noise composite is the same scalar at every point. -/
theorem c9_render_deterministic (p : Perlin) (t1 t2 : TerrainMaker)
    (hw : t1.width = t2.width) (hh : t1.height = t2.height)
    (hs : t1.seed = t2.seed) (hn : t1.name = t2.name)
    (hd : t1.description = t2.description) (hi : t1.initial = t2.initial)
    (hr : t1.region = t2.region) (hp : t1.printed_name = t2.printed_name)
    (hc : t1.conditions = t2.conditions) :
    t1.render p = t2.render p ∧ ∀ x y, t1.noise p x y = t2.noise p x y := by
  have heq : t1 = t2 := by
    cases t1
    cases t2
    simp_all
  subst heq
  exact ⟨rfl, fun _ _ => rfl⟩

/-- C9 witness: two invocations over the same 2 × 2 configuration. -/
theorem c9_witness :
    tm22.render constPerlin = tm22.render constPerlin ∧
    ∀ x y, tm22.noise constPerlin x y = tm22.noise constPerlin x y :=
  c9_render_deterministic constPerlin tm22 tm22 rfl rfl rfl rfl rfl rfl rfl rfl rfl

/-- C2 (counterexample): on a 2 × 1 grid with prefix "Room", the room with
1-based linear index 1 is named "Room Two" — the word for `width*height`,
not the word for its own index 1 ("Room One"): the ordinal words run in
reverse. -/
theorem c2_counterexample :
    (tmC2.rooms constPerlin).map (fun l => l.map Room.name)
      = some ["Room Two", "Room One"] ∧
    "Room Two" ≠ pyTitle ("Room" ++ " " ++ words 1) := by
  constructor
  · rw [tmC2_rooms_eval]
    decide
  · decide

/-- C2 (amended): the Room at 0-based row-major linear index i is named by
the configured prefix, a space, and the number word for `width*height - i`
(the 1-based index `i+1` receives the word for `width*height + 1 - (i+1)`:
the ordinal words run in reverse creation order), title-cased; the
identifiers are pairwise distinct (proved for grids below one million
rooms, the faithful range of the `num2words` model). -/
theorem c2_room_names {p : Perlin} {t : TerrainMaker} {rms : List Room}
    (h : t.rooms p = some rms) (hsz : t.width * t.height < 1000000) :
    rms.map Room.name = (List.range (t.width * t.height)).map
      (fun i => pyTitle (t.name ++ " " ++ words (t.width * t.height - i))) ∧
    (rms.map Room.name).Nodup := by
  obtain ⟨-, hname, -, -⟩ := rooms_spec h
  have hHW : t.height * t.width = t.width * t.height := Nat.mul_comm _ _
  rw [hname, hHW]
  refine ⟨rfl, ?_⟩
  apply List.Nodup.map_on _ (List.nodup_range _)
  intro x hx y hy hxy
  rw [List.mem_range] at hx hy
  have hinj := pyTitle_name_inj t.name
    (show t.width * t.height - x < 1000000 by omega)
    (show t.width * t.height - y < 1000000 by omega) hxy
  omega

/-- C2 witness: the 2 × 1 grid ("Room Two", "Room One"), distinct names. -/
theorem c2_witness :
    tmC2.rooms constPerlin = some c2Rooms ∧
    tmC2.width * tmC2.height < 1000000 ∧
    (c2Rooms.map Room.name = (List.range (tmC2.width * tmC2.height)).map
      (fun i => pyTitle (tmC2.name ++ " " ++ words (tmC2.width * tmC2.height - i))) ∧
    (c2Rooms.map Room.name).Nodup) :=
  ⟨tmC2_rooms_eval, by decide, c2_room_names tmC2_rooms_eval (by decide)⟩

/-- C4: for every configuration with a non-empty category mapping, and
every noise field within its nominal `[0, 1]` band, the grid pass succeeds
and produces exactly `width*height` rooms whose positions are, in creation
order, the row-major traversal of the rectangle — pairwise distinct and
covering exactly `{0..width-1} × {0..height-1}` (0-based (col, row)). -/
theorem c4_grid_complete (p : Perlin) (t : TerrainMaker)
    (hc : t.conditions ≠ [])
    (hv : ∀ x y, 0 ≤ t.noise p x y ∧ t.noise p x y ≤ 1) :
    ∃ rms, t.rooms p = some rms ∧
      rms.length = t.width * t.height ∧
      rms.map Room.position = (List.range t.height).flatMap
        (fun row => (List.range t.width).map fun col => (col, row)) ∧
      (rms.map Room.position).Nodup ∧
      (∀ q : ℕ × ℕ, q ∈ rms.map Room.position ↔ q.1 < t.width ∧ q.2 < t.height) := by
  obtain ⟨rms, hrms⟩ := rooms_isSome hc hv
  obtain ⟨hlen, -, hpos, -⟩ := rooms_spec hrms
  refine ⟨rms, hrms, by rw [hlen, Nat.mul_comm], ?_, ?_, ?_⟩
  · rw [hpos, range_flatMap_grid t.height t.width fun hi wi => (wi, hi)]
    rfl
  · rw [hpos]
    exact posList_nodup _ _
  · intro q
    rw [hpos]
    exact posList_mem

/-- C4 witness: the 2 × 2 grid under the constant noise oracle. -/
theorem c4_witness :
    tm22.conditions ≠ [] ∧
    (∀ x y, 0 ≤ tm22.noise constPerlin x y ∧ tm22.noise constPerlin x y ≤ 1) ∧
    (∃ rms, tm22.rooms constPerlin = some rms ∧
      rms.length = tm22.width * tm22.height ∧
      rms.map Room.position = (List.range tm22.height).flatMap
        (fun row => (List.range tm22.width).map fun col => (col, row)) ∧
      (rms.map Room.position).Nodup ∧
      (∀ q : ℕ × ℕ, q ∈ rms.map Room.position ↔ q.1 < tm22.width ∧ q.2 < tm22.height)) :=
  ⟨by decide, fun x y => by norm_num [TerrainMaker.noise, constPerlin],
    c4_grid_complete constPerlin tm22 (by decide)
      (fun x y => by norm_num [TerrainMaker.noise, constPerlin])⟩

/-- C5: adjacency is symmetric under the implementation's polarity (a
room's `north` field names the room one row up, whose `south` field names
it back; `west` names the room one column right, whose `east` field names
it back), and edge cells leave the reference absent when no neighboring
cell exists in that offset direction. -/
theorem c5_adjacency_symmetric {p : Perlin} {t : TerrainMaker} {rms : List Room}
    (h : t.rooms p = some rms) :
    ∀ r ∈ rms,
      (∀ nm, r.north = some nm → ∃ s ∈ rms, s.name = nm ∧ s.south = some r.name) ∧
      (∀ nm, r.south = some nm → ∃ s ∈ rms, s.name = nm ∧ s.north = some r.name) ∧
      (∀ nm, r.east = some nm → ∃ s ∈ rms, s.name = nm ∧ s.west = some r.name) ∧
      (∀ nm, r.west = some nm → ∃ s ∈ rms, s.name = nm ∧ s.east = some r.name) ∧
      (r.position.2 + 1 = t.height → r.north = none) ∧
      (r.position.2 = 0 → r.south = none) ∧
      (r.position.1 = 0 → r.east = none) ∧
      (r.position.1 + 1 = t.width → r.west = none) := by
  obtain ⟨-, -, hpos, hper⟩ := rooms_spec h
  have hat : ∀ q : ℕ × ℕ, q.1 < t.width → q.2 < t.height →
      ∃ s ∈ rms, s.position = q := by
    intro q h1 h2
    have hq : q ∈ rms.map Room.position := by
      rw [hpos]
      exact posList_mem.mpr ⟨h1, h2⟩
    obtain ⟨s, hs, hsq⟩ := List.mem_map.mp hq
    exact ⟨s, hs, hsq⟩
  intro r hr
  obtain ⟨⟨hx, hy⟩, hrname, hnorth, hsouth, hwest, heast⟩ := hper r hr
  have hretaname : nameFor t (r.position.1, r.position.2) = r.name := by
    rw [hrname]
  refine ⟨?_, ?_, ?_, ?_, ?_, ?_, ?_, ?_⟩
  · intro nm hnm
    rw [hnorth] at hnm
    by_cases hcond : r.position.2 + 1 < t.height
    · rw [if_pos hcond] at hnm
      obtain ⟨s, hs, hsq⟩ := hat (r.position.1, r.position.2 + 1) hx hcond
      obtain ⟨-, hsname, -, hssouth, -, -⟩ := hper s hs
      refine ⟨s, hs, ?_, ?_⟩
      · rw [hsname, hsq, ← Option.some_inj.mp hnm]
      · rw [hssouth, hsq]
        rw [if_pos (show 0 < (r.position.1, r.position.2 + 1).2 from Nat.succ_pos _)]
        rw [show (r.position.1, r.position.2 + 1).1 = r.position.1 from rfl,
          show (r.position.1, r.position.2 + 1).2 - 1 = r.position.2 from rfl]
        rw [hretaname]
    · rw [if_neg hcond] at hnm
      cases hnm
  · intro nm hnm
    rw [hsouth] at hnm
    by_cases hcond : 0 < r.position.2
    · rw [if_pos hcond] at hnm
      obtain ⟨s, hs, hsq⟩ := hat (r.position.1, r.position.2 - 1) hx (by omega)
      obtain ⟨-, hsname, hsnorth, -, -, -⟩ := hper s hs
      refine ⟨s, hs, ?_, ?_⟩
      · rw [hsname, hsq, ← Option.some_inj.mp hnm]
      · rw [hsnorth, hsq]
        rw [if_pos (show (r.position.1, r.position.2 - 1).2 + 1 < t.height by
          show r.position.2 - 1 + 1 < t.height
          omega)]
        rw [show (r.position.1, r.position.2 - 1).1 = r.position.1 from rfl,
          show (r.position.1, r.position.2 - 1).2 + 1 = r.position.2 from by
            show r.position.2 - 1 + 1 = r.position.2
            omega]
        rw [hretaname]
    · rw [if_neg hcond] at hnm
      cases hnm
  · intro nm hnm
    rw [heast] at hnm
    by_cases hcond : 0 < r.position.1
    · rw [if_pos hcond] at hnm
      obtain ⟨s, hs, hsq⟩ := hat (r.position.1 - 1, r.position.2) (by omega) hy
      obtain ⟨-, hsname, -, -, hswest, -⟩ := hper s hs
      refine ⟨s, hs, ?_, ?_⟩
      · rw [hsname, hsq, ← Option.some_inj.mp hnm]
      · rw [hswest, hsq]
        rw [if_pos (show (r.position.1 - 1, r.position.2).1 + 1 < t.width by
          show r.position.1 - 1 + 1 < t.width
          omega)]
        rw [show (r.position.1 - 1, r.position.2).1 + 1 = r.position.1 from by
            show r.position.1 - 1 + 1 = r.position.1
            omega,
          show (r.position.1 - 1, r.position.2).2 = r.position.2 from rfl]
        rw [hretaname]
    · rw [if_neg hcond] at hnm
      cases hnm
  · intro nm hnm
    rw [hwest] at hnm
    by_cases hcond : r.position.1 + 1 < t.width
    · rw [if_pos hcond] at hnm
      obtain ⟨s, hs, hsq⟩ := hat (r.position.1 + 1, r.position.2) hcond hy
      obtain ⟨-, hsname, -, -, -, hseast⟩ := hper s hs
      refine ⟨s, hs, ?_, ?_⟩
      · rw [hsname, hsq, ← Option.some_inj.mp hnm]
      · rw [hseast, hsq]
        rw [if_pos (show 0 < (r.position.1 + 1, r.position.2).1 from Nat.succ_pos _)]
        rw [show (r.position.1 + 1, r.position.2).1 - 1 = r.position.1 from rfl,
          show (r.position.1 + 1, r.position.2).2 = r.position.2 from rfl]
        rw [hretaname]
    · rw [if_neg hcond] at hnm
      cases hnm
  · intro hedge
    rw [hnorth, if_neg (by omega)]
  · intro hedge
    rw [hsouth, if_neg (by omega)]
  · intro hedge
    rw [heast, if_neg (by omega)]
  · intro hedge
    rw [hwest, if_neg (by omega)]

/-- C5 witness: the 2 × 2 grid under the constant oracle. -/
theorem c5_witness :
    tm22.rooms constPerlin = some tm22Rooms ∧
    ∀ r ∈ tm22Rooms,
      (∀ nm, r.north = some nm → ∃ s ∈ tm22Rooms, s.name = nm ∧ s.south = some r.name) ∧
      (∀ nm, r.south = some nm → ∃ s ∈ tm22Rooms, s.name = nm ∧ s.north = some r.name) ∧
      (∀ nm, r.east = some nm → ∃ s ∈ tm22Rooms, s.name = nm ∧ s.west = some r.name) ∧
      (∀ nm, r.west = some nm → ∃ s ∈ tm22Rooms, s.name = nm ∧ s.east = some r.name) ∧
      (r.position.2 + 1 = tm22.height → r.north = none) ∧
      (r.position.2 = 0 → r.south = none) ∧
      (r.position.1 = 0 → r.east = none) ∧
      (r.position.1 + 1 = tm22.width → r.west = none) :=
  ⟨tm22_rooms_eval, c5_adjacency_symmetric tm22_rooms_eval⟩

/-- When the key filter leaves exactly one key, `__regions` yields exactly
one region, fully determined. -/
theorem regions_eval_of_single {p : Perlin} {t : TerrainMaker} {rms : List Room}
    {k : String} (h : t.rooms p = some rms)
    (hflt : (t.conditions.map Prod.fst).filter (fun c =>
      ((rms.filter fun r => r.condition = c).map Room.name).length ≠ 0) = [k]) :
    t.regions p = some [{ name := pyTitle ("The " ++ k ++ " " ++ t.region)
                          condition := k
                          rooms := (rms.filter fun r => r.condition = k).map Room.name }] := by
  obtain ⟨regs, hregs, hconds, hmem⟩ := regions_spec h
  rw [hflt] at hconds
  cases regs with
  | nil => simp at hconds
  | cons reg rest =>
    cases rest with
    | cons r2 rr =>
      exfalso
      have := congrArg List.length hconds
      simp at this
    | nil =>
      have hcondk : reg.condition = k := by simpa using hconds
      obtain ⟨hrr, -, hnm⟩ := hmem reg (by simp)
      rw [hregs]
      congr 1
      cases reg with
      | mk n c rls =>
        simp only at hcondk
        subst hcondk
        simp only at hrr hnm
        rw [hrr, hnm]

/-- The region list of the 1 × 1 fixture. -/
theorem tm11_regions_eval : tm11.regions constPerlin =
    some [{ name := "The A Reg", condition := "a", rooms := ["R One"] }] := by
  have h := regions_eval_of_single tm11_rooms_eval
    (k := "a") (by decide)
  rw [h]
  decide

/-- The conditions block of the 1 × 1 fixture. -/
def tm11Block : String :=
  "A room can be a. A room is usually a.\n\nTo say d:\n\tsay \"i [run paragraph on]\";\n\tif the location is a, say \"x\"."

/-- Conditions-block evaluation for the 1 × 1 fixture. -/
theorem tm11_condblock_eval :
    tm11.conditionsBlock constPerlin = some tm11Block := by
  unfold TerrainMaker.conditionsBlock
  rw [tm11_regions_eval]
  decide

/-- The full rendered output of the 1 × 1 fixture. -/
def tm11Render : String :=
  "A room can be a. A room is usually a.\n\nTo say d:\n\tsay \"i [run paragraph on]\";\n\tif the location is a, say \"x\".\n\nR One is a room. It is a. The description of R One is \"[d]\". The printed name is \"P\". \n\nThe A Reg is a region. R One is in The A Reg."

set_option maxRecDepth 4000 in
/-- Render evaluation for the 1 × 1 fixture. -/
theorem tm11_render_eval : tm11.render constPerlin = some tm11Render := by
  unfold TerrainMaker.render
  rw [tm11_condblock_eval, tm11_rooms_eval, tm11_regions_eval]
  decide

/-- C10: a successful render is internally consistent even though the room
list is recomputed for each block: the output is the conditions block, the
room blocks, and the region blocks of one and the same (pure) room
computation; every region rendered has a non-empty membership list, and
every member name is the name of a room whose declaration block is in the
same output. -/
theorem c10_render_consistent {p : Perlin} {t : TerrainMaker} {out : String}
    (h : t.render p = some out) :
    ∃ c rms regs, t.conditionsBlock p = some c ∧ t.rooms p = some rms ∧
      t.regions p = some regs ∧
      out = pyJoin "\n\n" ([c] ++ rms.map Room.render ++ regs.map Region.render) ∧
      ∀ reg ∈ regs, reg.rooms ≠ [] ∧ ∀ nm ∈ reg.rooms, nm ∈ rms.map Room.name := by
  obtain ⟨c, rms, regs, hc, hr, hg, hout⟩ := render_some_eq h
  obtain ⟨regs2, hregs2, -, hmem⟩ := regions_spec hr
  have heq : regs2 = regs := by
    rw [hregs2] at hg
    exact Option.some_inj.mp hg
  refine ⟨c, rms, regs, hc, hr, hg, hout, ?_⟩
  intro reg hreg
  have hreg2 : reg ∈ regs2 := heq ▸ hreg
  obtain ⟨hrooms, hne, -⟩ := hmem reg hreg2
  refine ⟨hne, ?_⟩
  intro nm hnm
  rw [hrooms] at hnm
  obtain ⟨r, hrf, hrn⟩ := List.mem_map.mp hnm
  exact hrn ▸ List.mem_map_of_mem Room.name (List.mem_of_mem_filter hrf)

/-- C10 witness: the rendered 1 × 1 fixture. -/
theorem c10_witness :
    tm11.render constPerlin = some tm11Render ∧
    (∃ c rms regs, tm11.conditionsBlock constPerlin = some c ∧
      tm11.rooms constPerlin = some rms ∧
      tm11.regions constPerlin = some regs ∧
      tm11Render = pyJoin "\n\n" ([c] ++ rms.map Room.render ++ regs.map Region.render) ∧
      ∀ reg ∈ regs, reg.rooms ≠ [] ∧ ∀ nm ∈ reg.rooms, nm ∈ rms.map Room.name) :=
  ⟨tm11_render_eval, c10_render_consistent tm11_render_eval⟩

/-- Noise values of the two-category 1 × 1 fixture under `cexPerlin`. -/
theorem tmC3_values_eval : tmC3.values cexPerlin = [1] := by
  unfold TerrainMaker.values
  rw [show tmC3.height = 1 from rfl, show tmC3.width = 1 from rfl,
    show List.range 1 = [0] from by decide]
  simp only [List.flatMap_cons, List.flatMap_nil, List.map_cons, List.map_nil,
    List.append_nil, List.cons.injEq, and_true]
  norm_num [TerrainMaker.noise, cexPerlin]

/-- The single room of the two-category fixture: the noise value 1 maps to
category index 1, so the room gets the second category "b". -/
def c3Room : Room :=
  { name := pyTitle (tmC3.name ++ " " ++
      words (tmC3.width * tmC3.height + 1 - (0 * tmC3.width + 0 + 1)))
    value := 1
    condition := "b"
    position := (0, 0)
    description := tmC3.description
    printed_name := tmC3.printed_name
    north := none, south := none, east := none, west := none }

/-- Cell evaluation for the two-category fixture. -/
theorem tmC3_mkCell_eval : tmC3.mkCell cexPerlin (0, 0) = some c3Room := by
  simp only [TerrainMaker.mkCell]
  rw [tmC3_values_eval]
  rw [show (([1] : List ℚ).getD (0 * tmC3.width + 0 + 1 - 1) 0) = 1 from by decide]
  rw [show translate_value 1 0 1 0
      ((((tmC3.conditions.map Prod.fst).length : ℤ) : ℚ) - 1) = 1 from by
    norm_num [translate_value, tmC3, TerrainMaker.make]]
  rw [show pyRound (1 : ℚ) = 1 from by norm_num [pyRound]]
  rw [show pyIndex (tmC3.conditions.map Prod.fst) 1 = some "b" from by decide]
  rfl

/-- Room-list evaluation for the two-category fixture. -/
theorem tmC3_rooms_eval : tmC3.rooms cexPerlin = some [c3Room] := by
  have hp1 : tmC3.roomsPass1 cexPerlin = some [c3Room] := by
    unfold TerrainMaker.roomsPass1
    rw [show tmC3.cells = [(0, 0)] from by decide]
    simp only [seqMap, tmC3_mkCell_eval]
  unfold TerrainMaker.rooms
  rw [hp1]
  rfl

/-- Region evaluation for the two-category fixture: only "b" earns a
region. -/
theorem tmC3_regions_eval : tmC3.regions cexPerlin =
    some [{ name := "The B Reg", condition := "b", rooms := ["R One"] }] := by
  have h := regions_eval_of_single tmC3_rooms_eval (k := "b") (by decide)
  rw [h]
  decide

/-- The conditions block the two-category fixture actually renders. -/
def c3Block : String :=
  "A room can be b. A room is usually b.\n\nTo say d:\n\tsay \"i [run paragraph on]\";\n\tif the location is b, say \"y\"."

/-- Conditions-block evaluation for the two-category fixture. -/
theorem tmC3_condblock_eval :
    tmC3.conditionsBlock cexPerlin = some c3Block := by
  unfold TerrainMaker.conditionsBlock
  rw [tmC3_regions_eval]
  decide

set_option maxRecDepth 4000 in
/-- C3 (counterexample): with categories (a, b) configured and a noise
field under which every room gets category "b", the rendered declaration
is "A room can be b. A room is usually b." — it omits the room-less
category "a" and its default is not the first configured entry "a", so the
claim fails at this input. -/
theorem c3_counterexample :
    tmC3.conditionsBlock cexPerlin = some c3Block ∧
    List.isPrefixOf "A room can be b. A room is usually b.".data c3Block.data = true ∧
    List.isPrefixOf "A room can be a or b".data c3Block.data = false ∧
    List.IsInfix "A room is usually a".data c3Block.data = False :=
  ⟨tmC3_condblock_eval, by decide, by decide, by
    simp only [eq_iff_iff, iff_false]
    decide⟩

/-- `enumFrom` distributes over append. -/
theorem enumFrom_append_eq {α : Type} :
    ∀ (l1 l2 : List α) (n : ℕ),
      List.enumFrom n (l1 ++ l2) = List.enumFrom n l1 ++ List.enumFrom (n + l1.length) l2 := by
  intro l1
  induction l1 with
  | nil => intro l2 n; simp [List.enumFrom]
  | cons x xs ih =>
    intro l2 n
    show (n, x) :: List.enumFrom (n + 1) (xs ++ l2)
        = (n, x) :: (List.enumFrom (n + 1) xs ++ List.enumFrom (n + (x :: xs).length) l2)
    rw [ih]
    have harith : n + 1 + xs.length = n + (x :: xs).length := by
      simp only [List.length_cons]
      omega
    rw [harith]

/-- `enum` of a list ending in one element. -/
theorem enum_concat_eq {α : Type} (l : List α) (b : α) :
    (l ++ [b]).enum = l.enum ++ [(l.length, b)] := by
  unfold List.enum
  rw [enumFrom_append_eq]
  simp [List.enumFrom]

/-- C3 (amended): when at least one configured category is realised by some
room, the conditions block begins with the sentences "A room can be <list>."
and "A room is usually <first>." where the list contains only the categories
(in configuration order) that at least one room actually has, joined by
pretty_list with "or", and the default category is the first such realised
category, not necessarily the first configured one. -/
theorem c3_conditions_block {p : Perlin} {t : TerrainMaker} {rms : List Room}
    (h : t.rooms p = some rms)
    (hne : (t.conditions.map Prod.fst).filter (fun k =>
        ((rms.filter fun r => r.condition = k).map Room.name).length ≠ 0) ≠ []) :
    ∃ s rest, t.conditionsBlock p = some s ∧
      s = pyJoin " "
          ["A room can be " ++ pretty_list ((t.conditions.map Prod.fst).filter (fun k =>
              ((rms.filter fun r => r.condition = k).map Room.name).length ≠ 0)) "or" ++ ".",
           "A room is usually " ++ ((t.conditions.map Prod.fst).filter (fun k =>
              ((rms.filter fun r => r.condition = k).map Room.name).length ≠ 0)).headD "" ++ "."]
        ++ rest := by
  obtain ⟨regs, hregs, hconds, -⟩ := regions_spec h
  unfold TerrainMaker.conditionsBlock
  rw [hregs]
  dsimp only
  have hc : (t.conditions.map Prod.fst).filter (fun c => c ∈ regs.map Region.condition)
      = (t.conditions.map Prod.fst).filter (fun k =>
        ((rms.filter fun r => r.condition = k).map Room.name).length ≠ 0) := by
    rw [hconds]
    apply List.filter_congr
    intro a ha
    simp [List.mem_filter, ha]
  rw [hc]
  set conds := (t.conditions.map Prod.fst).filter (fun k =>
    ((rms.filter fun r => r.condition = k).map Room.name).length ≠ 0) with hcdef
  have hlen : conds.length ≠ 0 := fun h0 => hne (List.length_eq_zero.mp h0)
  rw [if_pos hlen]
  rcases conds.eq_nil_or_concat' with hnil | ⟨cs, cl, hcc⟩
  · exact absurd hnil hne
  rw [hcc]
  set body := ["To say " ++ t.description ++ ":",
    "\tsay \"" ++ t.initial ++ " [run paragraph on]\";"] with hbody
  set introL := pyJoin " " ["A room can be " ++ pretty_list (cs ++ [cl]) "or" ++ ".",
    "A room is usually " ++ (cs ++ [cl]).headD "" ++ "."] with hintro
  set F := (fun ic : ℕ × String =>
    "\tif the location is " ++ ic.2 ++ ", say \"" ++
      (match t.conditions.lookup ic.2 with
        | some d => d
        | none => "None") ++ "\"" ++
      if ic.1 = (cs ++ [cl]).length - 1 then "." else ";") with hF
  have hX : List.map F (cs ++ [cl]).enum = List.map F cs.enum ++ [F (cs.length, cl)] := by
    rw [enum_concat_eq, List.map_append, List.map_cons, List.map_nil]
  have hlines : ([introL, ""] ++ body) ++ List.map F (cs ++ [cl]).enum
      = (introL :: "" :: (body ++ List.map F cs.enum)) ++ [F (cs.length, cl)] := by
    rw [hX]
    simp [List.append_assoc]
  obtain ⟨pre, hpre⟩ := pyJoin_concat "\n" (F (cs.length, cl))
    (introL :: "" :: (body ++ List.map F cs.enum))
  have hjoin : pyJoin "\n" ([introL, ""] ++ body ++ List.map F (cs ++ [cl]).enum)
      = pre ++ F (cs.length, cl) := by
    rw [show ([introL, ""] ++ body ++ List.map F (cs ++ [cl]).enum)
      = (introL :: "" :: (body ++ List.map F cs.enum)) ++ [F (cs.length, cl)] from hlines,
      hpre]
  have hjoin2 : pyJoin "\n" ([introL, ""] ++ body ++ List.map F (cs ++ [cl]).enum)
      = introL ++ ("\n" ++ pyJoin "\n" ("" :: (body ++ List.map F (cs ++ [cl]).enum))) := by
    rw [← strAppend_assoc]
    rfl
  have hintroHead : ∃ l, introL.data = 'A' :: l := by
    rw [hintro]
    rw [show pyJoin " " ["A room can be " ++ pretty_list (cs ++ [cl]) "or" ++ ".",
        "A room is usually " ++ (cs ++ [cl]).headD "" ++ "."]
      = (("A room can be " ++ pretty_list (cs ++ [cl]) "or" ++ ".") ++ " ") ++
        ("A room is usually " ++ (cs ++ [cl]).headD "" ++ ".") from rfl]
    apply startsA
    apply startsA
    apply startsA
    apply startsA
    exact ⟨_, rfl⟩
  have hhead : ∃ l, (pyJoin "\n" ([introL, ""] ++ body ++ List.map F (cs ++ [cl]).enum)).data
      = 'A' :: l := by
    rw [hjoin2]
    exact startsA introL _ hintroHead
  have hifp : cs.length = (cs ++ [cl]).length - 1 := by simp
  have hFlast : F (cs.length, cl) = ("\tif the location is " ++ cl ++ ", say \"" ++
      (match t.conditions.lookup cl with
        | some d => d
        | none => "None") ++ "\"") ++ "." := by
    rw [hF]
    dsimp only
    rw [if_pos hifp]
  have htail : ∃ l2, (pyJoin "\n" ([introL, ""] ++ body ++ List.map F (cs ++ [cl]).enum)).data
      = l2 ++ ['.'] := by
    rw [hjoin, hFlast, ← strAppend_assoc]
    refine ⟨(pre ++ ("\tif the location is " ++ cl ++ ", say \"" ++
      (match t.conditions.lookup cl with
        | some d => d
        | none => "None") ++ "\"")).data, ?_⟩
    rw [String.data_append]
  obtain ⟨lh, hlh⟩ := hhead
  obtain ⟨lt, hlt⟩ := htail
  have hstrip := pythonStrip_id hlh (by decide) hlt (by decide)
  refine ⟨_, "\n" ++ pyJoin "\n" ("" :: (body ++ List.map F (cs ++ [cl]).enum)), rfl, ?_⟩
  rw [hstrip, hjoin2]

/-- Witness for `c3_conditions_block` at the 1 × 1 single-category fixture. -/
theorem c3_witness :
    tm11.rooms constPerlin = some tm11Rooms ∧
    (tm11.conditions.map Prod.fst).filter (fun k =>
        ((tm11Rooms.filter fun r => r.condition = k).map Room.name).length ≠ 0) ≠ [] ∧
    ∃ s rest, tm11.conditionsBlock constPerlin = some s ∧
      s = pyJoin " "
          ["A room can be " ++ pretty_list ((tm11.conditions.map Prod.fst).filter (fun k =>
              ((tm11Rooms.filter fun r => r.condition = k).map Room.name).length ≠ 0)) "or" ++ ".",
           "A room is usually " ++ ((tm11.conditions.map Prod.fst).filter (fun k =>
              ((tm11Rooms.filter fun r => r.condition = k).map Room.name).length ≠ 0)).headD ""
            ++ "."] ++ rest :=
  ⟨tm11_rooms_eval, by decide, c3_conditions_block tm11_rooms_eval (by decide)⟩
